import Mathlib

/-!
# AT24 EEPROM character-device driver (`at24.c`)

A shallow embedding of the file operations (`at24_llseek`, `at24_read`,
`at24_write`) and of the attach/detach paths (`at24_probe`, `at24_remove`).

Every C integer object is represented by its mathematical value in `Int`;
each conversion the C code performs is written out with one of the functions
`u8`, `u32`, `u64`, `s32`, `s64` below (two's complement, wrapping on signed
overflow as the kernel is built with `-fno-strict-overflow`).

The bus (`i2c_smbus_read_byte_data`, `i2c_smbus_write_byte_data`) and the
outcomes of the kernel services called by `at24_probe` are parameters. User
memory behind the `buffer` pointer is a partial map, so that `put_user` and
`get_user` can fail. A read or write returns, besides its result and the new
offset, the trace of transport calls and delays it made.

The declared size is a `u32`, the requested length a `size_t`, the offset a
`loff_t`: theorems state these ranges as hypotheses. Where a theorem is about
a transfer inside the device it takes the requested length as a non-negative
`ssize_t`, the range in which the returned count can be told from an errno.
-/

namespace At24

/-! ## C integer conversions -/

/-- Conversion to `u8`. -/
def u8 (x : Int) : Int := x % 256

/-- Conversion to `u32` (`unsigned int`). -/
def u32 (x : Int) : Int := x % 4294967296

/-- Conversion to `size_t` (64-bit unsigned). -/
def u64 (x : Int) : Int := x % 18446744073709551616

/-- Conversion to `int` (32-bit signed). -/
def s32 (x : Int) : Int := (x + 2147483648) % 4294967296 - 2147483648

/-- Conversion to `loff_t` / `ssize_t` (64-bit signed). -/
def s64 (x : Int) : Int :=
  (x + 9223372036854775808) % 18446744073709551616 - 9223372036854775808

/-! ## Constants -/

def AT24_MAX_DEVICES : Int := 32
def AT24_I2C_WRITE_DELAY : Int := 8

def EINVAL : Int := 22
def EFAULT : Int := 14
def ENOMEM : Int := 12
def ENODEV : Int := 19

def SEEK_SET : Int := 0
def SEEK_CUR : Int := 1
def SEEK_END : Int := 2

/-- The part of `struct at24_device` the file operations read: the declared
size, a `u32`. -/
structure at24_device where
  size_in_bytes : Int
deriving DecidableEq, Repr

/-! ## `at24_llseek` -/

/-- The `switch (whence)` of `at24_llseek`: the candidate position, or `none`
for the `default:` branch. The additions are `loff_t` additions. -/
def llseek_newpos (ldev : at24_device) (f_pos off whence : Int) : Option Int :=
  if whence = SEEK_SET then some off
  else if whence = SEEK_CUR then some (s64 (f_pos + off))
  else if whence = SEEK_END then some (s64 (ldev.size_in_bytes + off))
  else none

/-- Model of `at24_llseek`: the returned `loff_t` and `file->f_pos` after the
call. -/
def at24_llseek (ldev : at24_device) (f_pos off whence : Int) : Int × Int :=
  match llseek_newpos ldev f_pos off whence with
  | none => (-EINVAL, f_pos)
  | some newpos =>
    if newpos < 0 ∨ newpos > ldev.size_in_bytes then (-EINVAL, f_pos)
    else (newpos, newpos)

/-- The mathematical seek target of the three origins. -/
def seek_target (ldev : at24_device) (f_pos off whence : Int) : Option Int :=
  if whence = SEEK_SET then some off
  else if whence = SEEK_CUR then some (f_pos + off)
  else if whence = SEEK_END then some (ldev.size_in_bytes + off)
  else none

/-! ## The byte transport, user memory and the observable trace -/

/-- The two SMBus byte transfers the driver calls on its client, over an
abstract bus state `σ`. Each returns the `s32` result of the call (negative:
an errno; a read that succeeds returns the byte) and the bus state after it.
The `command` argument is the `u8` register address. -/
structure i2c_client (σ : Type) where
  i2c_smbus_read_byte_data : σ → Int → Int × σ
  i2c_smbus_write_byte_data : σ → Int → Int → Int × σ

/-- User memory as seen through the `buffer` pointer of a call: `m i` is the
byte at `&buffer[i]`, or `none` where the address cannot be accessed. -/
abbrev UserMem := Int → Option Int

/-- Model of `put_user(b, &buffer[i])`: `none` stands for `-EFAULT`. -/
def put_user (m : UserMem) (i b : Int) : Option UserMem :=
  match m i with
  | none => none
  | some _ => some (fun j => if j = i then some b else m j)

/-- Model of `get_user(byte, &buffer[i])` into a `u8`: `none` stands for
`-EFAULT`. -/
def get_user (m : UserMem) (i : Int) : Option Int :=
  match m i with
  | none => none
  | some b => some (u8 b)

/-- What a call does to the outside, in program order. -/
inductive Event where
  | read (command result : Int)
  | write (command value result : Int)
  | delay (ms : Int)
deriving DecidableEq, Repr

/-- The mutable surroundings of a transfer loop: the bus state, user memory,
and the events produced so far. -/
structure Io (σ : Type) where
  dev : σ
  user : UserMem
  trace : List Event

/-- What a read or write call leaves behind: the returned `ssize_t`, the value
of `*offset` after the call, the bus state and user memory after it, and the
events of the call in program order. -/
structure Outcome (σ : Type) where
  ret : Int
  pos : Int
  dev : σ
  user : UserMem
  trace : List Event

/-- More iterations than either transfer loop can make: the `int` counter
takes each of its values at most once before the loop condition fails. -/
def LOOP_FUEL : Nat := 4294967296

/-- The length after the clamp of `at24_read` and `at24_write`:
`min((loff_t)size_in_bytes - *offset - 1, (loff_t)length)` stored back into
the `size_t` variable. -/
def clamp_length (ldev : at24_device) (length offset : Int) : Int :=
  u64 (min (s64 (s64 (ldev.size_in_bytes - offset) - 1)) (s64 length))

/-- The end of a transfer: an early `return r` leaves `*offset` alone, the
normal exit runs `*offset += length; return length;`. -/
def finish {σ : Type} (offset length : Int) : Option Int × Io σ → Outcome σ
  | (some r, st) => ⟨r, offset, st.dev, st.user, st.trace⟩
  | (none, st) => ⟨s64 length, s64 (offset + length), st.dev, st.user, st.trace⟩

/-! ## `at24_read` -/

/-- The `for` loop of `at24_read`, started with counter `i`. The result is
`none` when the fuel runs out, `some (some r, _)` when the loop body executes
`return r`, and `some (none, _)` when the loop condition fails. -/
def read_loop {σ : Type} (client : i2c_client σ) (offset length : Int) :
    Nat → Int → Io σ → Option (Option Int × Io σ)
  | 0, _, _ => none
  | fuel + 1, i, st =>
    if u64 i < length then
      let command := u8 (s32 (u8 offset + i))
      let r := client.i2c_smbus_read_byte_data st.dev command
      let byte_from_device := r.1
      let trace := st.trace ++ [Event.read command byte_from_device]
      if byte_from_device < 0 then
        some (some byte_from_device, ⟨r.2, st.user, trace⟩)
      else
        match put_user st.user i (u8 byte_from_device) with
        | none => some (some (-EFAULT), ⟨r.2, st.user, trace⟩)
        | some user => read_loop client offset length fuel (s32 (i + 1)) ⟨r.2, user, trace⟩
    else some (none, st)

/-- Model of `at24_read(file, buffer, length, offset)` on the bus state `dev`
and the user memory `user` behind `buffer`; `none` only if the loop ran out of
fuel. -/
def at24_read {σ : Type} (client : i2c_client σ) (ldev : at24_device)
    (dev : σ) (user : UserMem) (length offset : Int) : Option (Outcome σ) :=
  if offset ≥ u32 (ldev.size_in_bytes - 1) then some ⟨0, offset, dev, user, []⟩
  else
    let length := clamp_length ldev length offset
    (read_loop client offset length LOOP_FUEL 0 ⟨dev, user, []⟩).map (finish offset length)

/-! ## `at24_write` -/

/-- The `for` loop of `at24_write`, started with counter `i`; results as for
`read_loop`. The increment expression `++i, msleep(AT24_I2C_WRITE_DELAY)` runs
after every iteration that reaches the end of the body. -/
def write_loop {σ : Type} (client : i2c_client σ) (offset length : Int) :
    Nat → Int → Io σ → Option (Option Int × Io σ)
  | 0, _, _ => none
  | fuel + 1, i, st =>
    if u64 i < length then
      match get_user st.user i with
      | none => some (some (-EFAULT), st)
      | some byte_send_to_device =>
        let command := u8 (s32 (u8 offset + i))
        let r := client.i2c_smbus_write_byte_data st.dev command byte_send_to_device
        let ret := r.1
        let trace := st.trace ++ [Event.write command byte_send_to_device ret]
        if ret < 0 then some (some ret, ⟨r.2, st.user, trace⟩)
        else
          write_loop client offset length fuel (s32 (i + 1))
            ⟨r.2, st.user, trace ++ [Event.delay AT24_I2C_WRITE_DELAY]⟩
    else some (none, st)

/-- Model of `at24_write(file, buffer, length, offset)` on the bus state `dev`
and the user memory `user` behind `buffer`; `none` only if the loop ran out of
fuel. -/
def at24_write {σ : Type} (client : i2c_client σ) (ldev : at24_device)
    (dev : σ) (user : UserMem) (length offset : Int) : Option (Outcome σ) :=
  if offset ≥ u32 (ldev.size_in_bytes - 1) then some ⟨0, offset, dev, user, []⟩
  else
    let length := clamp_length ldev length offset
    (write_loop client offset length LOOP_FUEL 0 ⟨dev, user, []⟩).map (finish offset length)

/-! ## Reading a trace -/

/-- The result of a transport call; a delay is no call. -/
def Event.result : Event → Option Int
  | .read _ r => some r
  | .write _ _ r => some r
  | .delay _ => none

/-- The register address handed to a transport call. -/
def Event.command : Event → Option Int
  | .read c _ => some c
  | .write c _ _ => some c
  | .delay _ => none

/-- The results of the transport calls of a trace, in order. -/
def results (tr : List Event) : List Int := tr.filterMap Event.result

/-- The register addresses of the transport calls of a trace, in order. -/
def commands (tr : List Event) : List Int := tr.filterMap Event.command

/-! ## The loops without the machine counter -/

/-- The number of iterations a transfer loop makes when no iteration
returns early: the `int` counter stops the loop once it has wrapped. -/
def iters (length : Int) : Nat := (min length 2147483648).toNat

/-- The first `k` iterations of the loop of `at24_read` from index `i`,
without fuel and with the index as a mathematical integer. -/
def read_iter {σ : Type} (client : i2c_client σ) (offset : Int) :
    Nat → Int → Io σ → Option Int × Io σ
  | 0, _, st => (none, st)
  | k + 1, i, st =>
    let command := u8 (offset + i)
    let r := client.i2c_smbus_read_byte_data st.dev command
    let trace := st.trace ++ [Event.read command r.1]
    if r.1 < 0 then (some r.1, ⟨r.2, st.user, trace⟩)
    else
      match put_user st.user i (u8 r.1) with
      | none => (some (-EFAULT), ⟨r.2, st.user, trace⟩)
      | some user => read_iter client offset k (i + 1) ⟨r.2, user, trace⟩

/-- The first `k` iterations of the loop of `at24_write` from index `i`,
without fuel and with the index as a mathematical integer. -/
def write_iter {σ : Type} (client : i2c_client σ) (offset : Int) :
    Nat → Int → Io σ → Option Int × Io σ
  | 0, _, st => (none, st)
  | k + 1, i, st =>
    match get_user st.user i with
    | none => (some (-EFAULT), st)
    | some byte_send_to_device =>
      let command := u8 (offset + i)
      let r := client.i2c_smbus_write_byte_data st.dev command byte_send_to_device
      let trace := st.trace ++ [Event.write command byte_send_to_device r.1]
      if r.1 < 0 then (some r.1, ⟨r.2, st.user, trace⟩)
      else
        write_iter client offset k (i + 1)
          ⟨r.2, st.user, trace ++ [Event.delay AT24_I2C_WRITE_DELAY]⟩

/-- The events of consecutive read iterations from index `i` whose transport
results are `rs`. -/
def read_events (offset : Int) : Int → List Int → List Event
  | _, [] => []
  | i, r :: rs => Event.read (u8 (offset + i)) r :: read_events offset (i + 1) rs

/-- User memory after the bytes `rs` were stored at `buffer[i..]`. -/
def stored (m : UserMem) : Int → List Int → UserMem
  | _, [] => m
  | i, r :: rs => stored (fun j => if j = i then some (u8 r) else m j) (i + 1) rs

/-- The events of consecutive completed write iterations from index `i`; each
pair is the byte sent and the transport result. -/
def write_events (offset : Int) : Int → List (Int × Int) → List Event
  | _, [] => []
  | i, p :: rest =>
    Event.write (u8 (offset + i)) p.1 p.2 :: Event.delay AT24_I2C_WRITE_DELAY
      :: write_events offset (i + 1) rest

/-- The ways the loop of `at24_read` can run `k` iterations from index `i`:
`rs` are the results of the iterations that completed; then the loop either
finished, or a transport read failed with `c`, or a byte read as `c` could not
be stored. -/
def ReadShape (offset i : Int) (k : Nat) (user0 : UserMem) (o : Option Int)
    (user1 : UserMem) (evs : List Event) : Prop :=
  ∃ rs : List Int, (∀ r ∈ rs, 0 ≤ r) ∧ user1 = stored user0 i rs ∧
    ((o = none ∧ evs = read_events offset i rs ∧ rs.length = k) ∨
     (∃ c, o = some c ∧ c < 0 ∧ rs.length < k ∧
        evs = read_events offset i rs ++ [Event.read (u8 (offset + i + rs.length)) c]) ∨
     (∃ c, o = some (-EFAULT) ∧ 0 ≤ c ∧ rs.length < k ∧ user0 (i + rs.length) = none ∧
        evs = read_events offset i rs ++ [Event.read (u8 (offset + i + rs.length)) c]))

/-- The ways the loop of `at24_write` can run `k` iterations from index `i`:
`ps` are the bytes and results of the iterations that completed; then the loop
either finished, or a transport write of `v` failed with `c`, or a byte could
not be fetched. -/
def WriteShape (offset i : Int) (k : Nat) (user0 : UserMem) (o : Option Int)
    (user1 : UserMem) (evs : List Event) : Prop :=
  ∃ ps : List (Int × Int), (∀ p ∈ ps, 0 ≤ p.2) ∧ user1 = user0 ∧
    ((o = none ∧ evs = write_events offset i ps ∧ ps.length = k) ∨
     (∃ v c, o = some c ∧ c < 0 ∧ ps.length < k ∧
        evs = write_events offset i ps
          ++ [Event.write (u8 (offset + i + ps.length)) v c]) ∨
     (o = some (-EFAULT) ∧ ps.length < k ∧ user0 (i + ps.length) = none ∧
        evs = write_events offset i ps))

/-- The register addresses of `n` consecutive bytes from index `i`. -/
def addresses (offset : Int) : Int → Nat → List Int
  | _, 0 => []
  | i, n + 1 => u8 (offset + i) :: addresses offset (i + 1) n

/-- The sequence of the specification: the absolute byte offsets
`offset, offset + 1, ..., offset + n - 1`, ascending. -/
def absolute_offsets (offset : Int) (n : Nat) : List Int :=
  (List.range n).map (fun (t : Nat) => offset + (t : Int))

/-! ## Concrete surroundings used in the examples -/

/-- A bus device that behaves as a store of 256 byte registers and never
fails. -/
def eeprom : i2c_client (Int → Int) where
  i2c_smbus_read_byte_data := fun m command => (u8 (m command), m)
  i2c_smbus_write_byte_data := fun m command value =>
    (0, fun j => if j = command then value else m j)

/-- A bus whose call number `k` (counted from 0) fails with `err`; every other
call succeeds, reads returning 0. The state counts the calls made. -/
def flaky (k : Nat) (err : Int) : i2c_client Nat where
  i2c_smbus_read_byte_data := fun n _ => (if n = k then err else 0, n + 1)
  i2c_smbus_write_byte_data := fun n _ _ => (if n = k then err else 0, n + 1)

/-- User memory holding the bytes `l` at `buffer[0..]` and nothing else. -/
def user_of (l : List Int) : UserMem :=
  fun i => if 0 ≤ i then l[i.toNat]? else none

/-- The first `n` bytes at `buffer[0..]`, `none` for an inaccessible one. -/
def user_bytes (m : UserMem) (n : Nat) : List (Option Int) :=
  (List.range n).map (fun (k : Nat) => m (k : Int))

/-- The round trip of the specification on one session: write the bytes `w`
at session offset 0, seek to absolute 0 from where the write left the offset,
then read `capacity` bytes into `rbuf`. The outcome is that of the read. -/
def write_seek_read {σ : Type} (client : i2c_client σ) (ldev : at24_device) (dev : σ)
    (w : List Int) (rbuf : UserMem) : Option (Outcome σ) :=
  match at24_write client ldev dev (user_of w) w.length 0 with
  | none => none
  | some r1 =>
    at24_read client ldev r1.dev rbuf ldev.size_in_bytes
      (at24_llseek ldev r1.pos 0 SEEK_SET).2

/-- A sequence of 257 bytes: a 1, 255 zeros, a 2. -/
def long_w : List Int := 1 :: (List.replicate 255 0 ++ [2])

/-- The byte the write loop fetches from `buffer[c]`, 0 where there is
none. -/
def sent (m : UserMem) (c : Int) : Int :=
  match get_user m c with
  | some b => b
  | none => 0

/-! ## Attach and detach: `at24_probe`, `at24_remove` -/

/-- An attached `struct at24_device`: the size read at probe time and the
minor of the device number its character device was added with. -/
structure Instance where
  size_in_bytes : Int
  minor : Int
deriving DecidableEq, Repr

/-- A device node published by `device_create`: the minor of its device
number and its name. -/
structure Node where
  minor : Int
  name : String
deriving DecidableEq, Repr

/-- The global driver data and what the kernel holds for the driver:
`device_count` (an `atomic_t`, far from the limits of `int` in any run), the
device nodes created in `at24_class` and the instances whose character device
is live, latest first. -/
structure Driver where
  device_count : Int
  nodes : List Node
  attached : List Instance
deriving DecidableEq, Repr

/-- The outcomes of the external steps of one `at24_probe`:
`devm_kzalloc` (did it return memory), `device_property_read_u32` of "size"
(`none`: an error, else the `u32` read), `i2c_check_functionality`,
`device_create` (negative: the `PTR_ERR` of an error pointer) and
`cdev_add` (negative: an errno). -/
structure ProbeEnv where
  devm_kzalloc : Bool
  size : Option Int
  i2c_check_functionality : Bool
  device_create : Int
  cdev_add : Int
deriving DecidableEq, Repr

/-- The node name `"eeprom%d"` of a minor. -/
def eeprom_name (minor : Int) : String := "eeprom" ++ toString minor

/-- Model of `device_destroy(at24_class, devno)`: the node with that device
number goes. -/
def device_destroy (nodes : List Node) (minor : Int) : List Node :=
  nodes.eraseP (fun n => decide (n.minor = minor))

/-- State at module load: `ATOMIC_INIT(0)`, nothing created. -/
def driver_init : Driver := ⟨0, [], []⟩

/-- Model of `at24_probe`: the returned `int` and the driver state after the
call. `atomic_fetch_inc` yields the old count as the minor. -/
def at24_probe (env : ProbeEnv) (d : Driver) : Int × Driver :=
  if env.devm_kzalloc = false then (-ENOMEM, d)
  else
    match env.size with
    | none => (-EINVAL, d)
    | some size =>
      if env.i2c_check_functionality = false then (-ENODEV, d)
      else
        let minor := d.device_count
        let d1 : Driver := { d with device_count := d.device_count + 1 }
        if env.device_create < 0 then
          (env.device_create, { d1 with device_count := d1.device_count - 1 })
        else
          let d2 : Driver := { d1 with nodes := ⟨minor, eeprom_name minor⟩ :: d1.nodes }
          if env.cdev_add < 0 then
            (env.cdev_add,
              { d2 with nodes := device_destroy d2.nodes minor,
                        device_count := d2.device_count - 1 })
          else (0, { d2 with attached := ⟨size, minor⟩ :: d2.attached })

/-- Model of `at24_remove` on the instance behind the client: `cdev_del`,
`device_destroy`, `atomic_dec`. -/
def at24_remove (inst : Instance) (d : Driver) : Driver :=
  { device_count := d.device_count - 1,
    nodes := device_destroy d.nodes inst.minor,
    attached := d.attached.erase inst }

/-- One attach or detach. -/
inductive Op where
  | probe (env : ProbeEnv)
  | remove (inst : Instance)
deriving DecidableEq, Repr

/-- The driver state after one operation. -/
def step (d : Driver) : Op → Driver
  | .probe env => (at24_probe env d).2
  | .remove inst => at24_remove inst d

/-- The driver state after a sequence of operations from module load. -/
def run (ops : List Op) : Driver := ops.foldl step driver_init

/-- A probe all of whose external steps succeed, for a device declaring
`size` bytes. -/
def probe_ok (size : Int) : ProbeEnv := ⟨true, some size, true, 0, 0⟩

/-! ## Sequences of attach and detach from any state -/

/-- The driver state after a sequence of operations from the state `d`. -/
def run_from (d : Driver) (ops : List Op) : Driver := ops.foldl step d

/-- Whether every `at24_remove` of the sequence, run from `d`, is called on an
instance that is attached at that moment. -/
def removes_attached : Driver → List Op → Bool
  | _, [] => true
  | d, Op.probe env :: rest => removes_attached (step d (Op.probe env)) rest
  | d, Op.remove inst :: rest =>
    decide (inst ∈ d.attached) && removes_attached (step d (Op.remove inst)) rest

/-- The number of `at24_probe` calls of the sequence, run from `d`, that
return 0. -/
def successful_probes : Driver → List Op → Nat
  | _, [] => 0
  | d, Op.probe env :: rest =>
    (if (at24_probe env d).1 = 0 then 1 else 0) + successful_probes (step d (Op.probe env)) rest
  | d, Op.remove inst :: rest => successful_probes (step d (Op.remove inst)) rest

/-- The number of `at24_remove` calls of the sequence. -/
def removes : List Op → Nat
  | [] => 0
  | Op.probe _ :: rest => removes rest
  | Op.remove _ :: rest => 1 + removes rest

/-! ## Traces of the transfer loops, whatever the counter does -/

/-- The trace of a run of the loop of `at24_read` from index `i`: successful
reads of consecutive register addresses with results `rs`, then either
nothing more (the loop finished, or the last byte read could not be stored)
or one failed read. -/
def ReadTrace (offset i : Int) (o : Option Int) (evs : List Event) : Prop :=
  ∃ rs : List Int, (∀ r ∈ rs, 0 ≤ r) ∧
    (((o = none ∨ o = some (-EFAULT)) ∧ evs = read_events offset i rs) ∨
     (∃ c, o = some c ∧ c < 0 ∧
        evs = read_events offset i rs ++ [Event.read (u8 (offset + i + rs.length)) c]))

/-- The trace of a run of the loop of `at24_write` from index `i`: successful
writes of consecutive register addresses, each followed by the delay, then
either nothing more (the loop finished, or a byte could not be fetched) or one
failed write. -/
def WriteTrace (offset i : Int) (o : Option Int) (evs : List Event) : Prop :=
  ∃ ps : List (Int × Int), (∀ p ∈ ps, 0 ≤ p.2) ∧
    (((o = none ∨ o = some (-EFAULT)) ∧ evs = write_events offset i ps) ∨
     (∃ v c, o = some c ∧ c < 0 ∧
        evs = write_events offset i ps
          ++ [Event.write (u8 (offset + i + ps.length)) v c]))

/-- The settling discipline of a write trace: it is a sequence of pairs of a
successful write and a delay of `AT24_I2C_WRITE_DELAY`, possibly ended by one
failed write. -/
def settled : List Event → Bool
  | [] => true
  | [Event.write _ _ r] => decide (r < 0)
  | Event.write _ _ r :: Event.delay ms :: rest =>
    decide (0 ≤ r) && decide (ms = AT24_I2C_WRITE_DELAY) && settled rest
  | _ => false

/-- The number of iterations the loop of either transfer makes from counter
`i` when no iteration returns early: it follows the `int` counter until the
loop condition `i < length` fails. -/
def loop_count (length : Int) : Nat → Int → Nat
  | 0, _ => 0
  | fuel + 1, i => if u64 i < length then loop_count length fuel (s32 (i + 1)) + 1 else 0

/-! ## What `device_create` answers -/

/-- Whether the outcomes of `device_create` along the sequence, run from `d`,
are answers the kernel can give. `device_create` registers the node in
`at24_class` under the name `eeprom<minor>` and the device number of the
minor, and returns an error pointer (`-EEXIST`) when a node with that device
number is still registered there. So a call that succeeds was made for a
minor that has no live node; a call for a minor with a live node fails. -/
def device_create_refuses_live : Driver → List Op → Bool
  | _, [] => true
  | d, Op.probe env :: rest =>
    (decide (env.device_create < 0)
        || !(d.nodes.any (fun n => decide (n.minor = d.device_count))))
      && device_create_refuses_live (step d (Op.probe env)) rest
  | d, Op.remove inst :: rest => device_create_refuses_live (step d (Op.remove inst)) rest

/-! ## Facts about the conversions -/

theorem s64_of_range {x : Int} (h1 : -9223372036854775808 ≤ x)
    (h2 : x < 9223372036854775808) : s64 x = x := by
  unfold s64; omega

theorem u8_s32 (x : Int) : u8 (s32 x) = u8 x := by
  unfold u8 s32; omega

theorem u8_add_u8 (a b : Int) : u8 (u8 a + b) = u8 (a + b) := by
  unfold u8; omega

theorem command_eq (offset i : Int) : u8 (s32 (u8 offset + i)) = u8 (offset + i) := by
  rw [u8_s32, u8_add_u8]

theorem s32_of_range {x : Int} (h1 : -2147483648 ≤ x) (h2 : x < 2147483648) :
    s32 x = x := by
  unfold s32; omega

/-! ## The loops run as many iterations as `iters` says -/

theorem read_loop_eq_iter {σ : Type} (client : i2c_client σ) (offset length : Int) :
    ∀ (k fuel : Nat) (j : Int) (st : Io σ), 0 ≤ j → j + k ≤ 2147483648 →
      (j + k = length ∨ (j + k = 2147483648 ∧ 2147483648 ≤ length
        ∧ length ≤ 18446744071562067968)) →
      k < fuel →
      read_loop client offset length fuel (s32 j) st
        = some (read_iter client offset k j st) := by
  intro k
  induction k with
  | zero =>
    intro fuel j st hj hjk hexit hfuel
    obtain ⟨f, rfl⟩ : ∃ f, fuel = f + 1 := ⟨fuel - 1, by omega⟩
    have hc : ¬ u64 (s32 j) < length := by
      unfold u64 s32; omega
    simp only [read_loop, hc, if_false, read_iter]
  | succ k ih =>
    intro fuel j st hj hjk hexit hfuel
    obtain ⟨f, rfl⟩ : ∃ f, fuel = f + 1 := ⟨fuel - 1, by omega⟩
    have hs : s32 j = j := s32_of_range (by omega) (by omega)
    have hc : u64 j < length := by
      unfold u64; omega
    have ih1 := fun st1 => ih f (j + 1) st1 (by omega) (by push_cast at hjk ⊢; omega)
      (by push_cast at hexit ⊢; omega) (by omega)
    simp only [read_loop, read_iter, hs, hc, if_true, command_eq]
    split
    · rfl
    · split
      · rfl
      · exact ih1 _

theorem write_loop_eq_iter {σ : Type} (client : i2c_client σ) (offset length : Int) :
    ∀ (k fuel : Nat) (j : Int) (st : Io σ), 0 ≤ j → j + k ≤ 2147483648 →
      (j + k = length ∨ (j + k = 2147483648 ∧ 2147483648 ≤ length
        ∧ length ≤ 18446744071562067968)) →
      k < fuel →
      write_loop client offset length fuel (s32 j) st
        = some (write_iter client offset k j st) := by
  intro k
  induction k with
  | zero =>
    intro fuel j st hj hjk hexit hfuel
    obtain ⟨f, rfl⟩ : ∃ f, fuel = f + 1 := ⟨fuel - 1, by omega⟩
    have hc : ¬ u64 (s32 j) < length := by
      unfold u64 s32; omega
    simp only [write_loop, hc, if_false, write_iter]
  | succ k ih =>
    intro fuel j st hj hjk hexit hfuel
    obtain ⟨f, rfl⟩ : ∃ f, fuel = f + 1 := ⟨fuel - 1, by omega⟩
    have hs : s32 j = j := s32_of_range (by omega) (by omega)
    have hc : u64 j < length := by
      unfold u64; omega
    have ih1 := fun st1 => ih f (j + 1) st1 (by omega) (by push_cast at hjk ⊢; omega)
      (by push_cast at hexit ⊢; omega) (by omega)
    simp only [write_loop, write_iter, hs, hc, if_true, command_eq]
    split
    · rfl
    · split
      · rfl
      · exact ih1 _

theorem iters_exit (length : Int) (h0 : 0 ≤ length) (h1 : length ≤ 18446744071562067968) :
    ((0 : Int) + iters length ≤ 2147483648) ∧
    ((0 : Int) + iters length = length ∨ ((0 : Int) + iters length = 2147483648
      ∧ 2147483648 ≤ length ∧ length ≤ 18446744071562067968)) ∧
    iters length < LOOP_FUEL := by
  unfold iters LOOP_FUEL
  omega

/-- Outside the end-of-file guard, and with a clamped length the `int`
counter can stop, `at24_read` is the unrolled loop followed by `finish`. -/
theorem at24_read_eq {σ : Type} (client : i2c_client σ) (ldev : at24_device)
    (dev : σ) (user : UserMem) (length offset : Int)
    (hg : ¬ offset ≥ u32 (ldev.size_in_bytes - 1))
    (h1 : clamp_length ldev length offset ≤ 18446744071562067968) :
    at24_read client ldev dev user length offset
      = some (finish offset (clamp_length ldev length offset)
          (read_iter client offset (iters (clamp_length ldev length offset)) 0
            ⟨dev, user, []⟩)) := by
  have h0 : 0 ≤ clamp_length ldev length offset := by
    unfold clamp_length u64; omega
  obtain ⟨a, b, c⟩ := iters_exit _ h0 h1
  have := read_loop_eq_iter client offset (clamp_length ldev length offset)
    (iters (clamp_length ldev length offset)) LOOP_FUEL 0 ⟨dev, user, []⟩ (le_refl _) a b c
  rw [show s32 0 = 0 by decide] at this
  simp only [at24_read, hg, if_false, this, Option.map_some']

/-- The same for `at24_write`. -/
theorem at24_write_eq {σ : Type} (client : i2c_client σ) (ldev : at24_device)
    (dev : σ) (user : UserMem) (length offset : Int)
    (hg : ¬ offset ≥ u32 (ldev.size_in_bytes - 1))
    (h1 : clamp_length ldev length offset ≤ 18446744071562067968) :
    at24_write client ldev dev user length offset
      = some (finish offset (clamp_length ldev length offset)
          (write_iter client offset (iters (clamp_length ldev length offset)) 0
            ⟨dev, user, []⟩)) := by
  have h0 : 0 ≤ clamp_length ldev length offset := by
    unfold clamp_length u64; omega
  obtain ⟨a, b, c⟩ := iters_exit _ h0 h1
  have := write_loop_eq_iter client offset (clamp_length ldev length offset)
    (iters (clamp_length ldev length offset)) LOOP_FUEL 0 ⟨dev, user, []⟩ (le_refl _) a b c
  rw [show s32 0 = 0 by decide] at this
  simp only [at24_write, hg, if_false, this, Option.map_some']

/-- Inside the device, with a requested length that is a non-negative
`ssize_t`, the guard is passed and the clamp is the mathematical minimum. -/
theorem clamp_in_range (ldev : at24_device) (length offset : Int)
    (hsize : ldev.size_in_bytes < 4294967296)
    (hoff : 0 ≤ offset ∧ offset < ldev.size_in_bytes - 1)
    (hlen : 0 ≤ length ∧ length < 9223372036854775808) :
    ¬ offset ≥ u32 (ldev.size_in_bytes - 1) ∧
    clamp_length ldev length offset = min length (ldev.size_in_bytes - offset - 1) := by
  constructor
  · unfold u32; omega
  · unfold clamp_length u64 s64
    rcases le_total length (ldev.size_in_bytes - offset - 1) with h | h
    · rw [min_eq_left h]
      rw [min_eq_right (by omega)]
      omega
    · rw [min_eq_right h]
      rw [min_eq_left (by omega)]
      omega

/-! ## The shape of a run of the loops -/

theorem put_user_eq_none {m : UserMem} {i b : Int} (h : put_user m i b = none) :
    m i = none := by
  unfold put_user at h
  split at h
  · assumption
  · simp at h

theorem put_user_eq_some {m m1 : UserMem} {i b : Int} (h : put_user m i b = some m1) :
    m1 = (fun j => if j = i then some b else m j) := by
  unfold put_user at h
  split at h
  · simp at h
  · simpa using h.symm

theorem get_user_eq_none {m : UserMem} {i : Int} (h : get_user m i = none) :
    m i = none := by
  unfold get_user at h
  split at h
  · assumption
  · simp at h

theorem read_iter_shape {σ : Type} (client : i2c_client σ) (offset : Int) :
    ∀ (k : Nat) (i : Int) (st : Io σ), ∃ evs,
      (read_iter client offset k i st).2.trace = st.trace ++ evs ∧
      ReadShape offset i k st.user (read_iter client offset k i st).1
        (read_iter client offset k i st).2.user evs := by
  intro k
  induction k with
  | zero =>
    intro i st
    exact ⟨[], by simp [read_iter], [], by simp, rfl, Or.inl ⟨rfl, rfl, rfl⟩⟩
  | succ k ih =>
    intro i st
    simp only [read_iter]
    split
    · next hneg =>
      refine ⟨[Event.read (u8 (offset + i))
        (client.i2c_smbus_read_byte_data st.dev (u8 (offset + i))).1], rfl, [], by simp, rfl, ?_⟩
      exact Or.inr (Or.inl ⟨_, rfl, hneg, by simp, by simp [read_events]⟩)
    · next hpos =>
      split
      · next hput =>
        refine ⟨[Event.read (u8 (offset + i))
          (client.i2c_smbus_read_byte_data st.dev (u8 (offset + i))).1], rfl, [], by simp,
          rfl, ?_⟩
        exact Or.inr (Or.inr ⟨_, rfl, not_lt.mp hpos, by simp,
          by simpa using put_user_eq_none hput, by simp [read_events]⟩)
      · next user hput =>
        obtain ⟨evs, htr, rs, hrs, huser, hcases⟩ := ih (i + 1)
          ⟨(client.i2c_smbus_read_byte_data st.dev (u8 (offset + i))).2, user,
            st.trace ++ [Event.read (u8 (offset + i))
              (client.i2c_smbus_read_byte_data st.dev (u8 (offset + i))).1]⟩
        have hu := put_user_eq_some hput
        refine ⟨Event.read (u8 (offset + i))
          (client.i2c_smbus_read_byte_data st.dev (u8 (offset + i))).1 :: evs,
          by rw [htr]; simp,
          (client.i2c_smbus_read_byte_data st.dev (u8 (offset + i))).1 :: rs, ?_, ?_, ?_⟩
        · intro r hr
          rcases List.mem_cons.mp hr with h | h
          · rw [h]; exact not_lt.mp hpos
          · exact hrs r h
        · rw [huser]; simp only [stored, hu]
        · have e : offset + (i + 1) + (rs.length : Int)
              = offset + i + ((rs.length + 1 : Nat) : Int) := by push_cast; ring
          rcases hcases with ⟨h1, h2, h3⟩ | ⟨c, h1, h2, h3, h4⟩ | ⟨c, h1, h2, h3, h4, h5⟩
          · exact Or.inl ⟨h1, by simp [read_events, h2], by simp [h3]⟩
          · refine Or.inr (Or.inl ⟨c, h1, h2, by simp; omega, ?_⟩)
            rw [h4, e]; simp [read_events]
          · refine Or.inr (Or.inr ⟨c, h1, h2, by simp; omega, ?_, ?_⟩)
            · simp only [hu] at h4
              have hne : ¬ (i + 1 + (rs.length : Int) = i) := by omega
              simp only [hne, if_false] at h4
              rw [← h4]; congr 1; simp; ring
            · rw [h5, e]; simp [read_events]

theorem write_iter_shape {σ : Type} (client : i2c_client σ) (offset : Int) :
    ∀ (k : Nat) (i : Int) (st : Io σ), ∃ evs,
      (write_iter client offset k i st).2.trace = st.trace ++ evs ∧
      WriteShape offset i k st.user (write_iter client offset k i st).1
        (write_iter client offset k i st).2.user evs := by
  intro k
  induction k with
  | zero =>
    intro i st
    exact ⟨[], by simp [write_iter], [], by simp, rfl, Or.inl ⟨rfl, rfl, rfl⟩⟩
  | succ k ih =>
    intro i st
    simp only [write_iter]
    split
    · next hget =>
      refine ⟨[], by simp, [], by simp, rfl, ?_⟩
      exact Or.inr (Or.inr ⟨rfl, by simp, by simpa using get_user_eq_none hget,
        by simp [write_events]⟩)
    · next v hget =>
      split
      · next hneg =>
        refine ⟨[Event.write (u8 (offset + i)) v
          (client.i2c_smbus_write_byte_data st.dev (u8 (offset + i)) v).1], rfl, [], by simp,
          rfl, ?_⟩
        exact Or.inr (Or.inl ⟨v, _, rfl, hneg, by simp, by simp [write_events]⟩)
      · next hpos =>
        obtain ⟨evs, htr, ps, hps, huser, hcases⟩ := ih (i + 1)
          ⟨(client.i2c_smbus_write_byte_data st.dev (u8 (offset + i)) v).2, st.user,
            st.trace ++ [Event.write (u8 (offset + i)) v
              (client.i2c_smbus_write_byte_data st.dev (u8 (offset + i)) v).1]
              ++ [Event.delay AT24_I2C_WRITE_DELAY]⟩
        refine ⟨Event.write (u8 (offset + i)) v
          (client.i2c_smbus_write_byte_data st.dev (u8 (offset + i)) v).1
            :: Event.delay AT24_I2C_WRITE_DELAY :: evs,
          by rw [htr]; simp,
          (v, (client.i2c_smbus_write_byte_data st.dev (u8 (offset + i)) v).1) :: ps,
          ?_, huser, ?_⟩
        · intro p hp
          rcases List.mem_cons.mp hp with h | h
          · rw [h]; exact not_lt.mp hpos
          · exact hps p h
        · have e : offset + (i + 1) + (ps.length : Int)
              = offset + i + ((ps.length + 1 : Nat) : Int) := by push_cast; ring
          have e2 : i + 1 + (ps.length : Int) = i + ((ps.length + 1 : Nat) : Int) := by
            push_cast; ring
          rcases hcases with ⟨h1, h2, h3⟩ | ⟨w, c, h1, h2, h3, h4⟩ | ⟨h1, h2, h3, h4⟩
          · exact Or.inl ⟨h1, by simp [write_events, h2], by simp [h3]⟩
          · refine Or.inr (Or.inl ⟨w, c, h1, h2, by simp; omega, ?_⟩)
            rw [h4, e]; simp [write_events]
          · refine Or.inr (Or.inr ⟨h1, by simp; omega, ?_, ?_⟩)
            · have h3a : st.user (i + 1 + (ps.length : Int)) = none := h3
              rw [← h3a]; congr 1; simp; ring
            · rw [h4]; simp [write_events]

/-! ## Reading the trace of a run -/

theorem results_append (a b : List Event) : results (a ++ b) = results a ++ results b := by
  simp [results]

theorem commands_append (a b : List Event) : commands (a ++ b) = commands a ++ commands b := by
  simp [commands]

theorem results_read_events (offset : Int) :
    ∀ (rs : List Int) (i : Int), results (read_events offset i rs) = rs := by
  intro rs
  induction rs with
  | nil => intro i; rfl
  | cons r rs ih =>
    intro i
    have := ih (i + 1)
    simp only [results] at this
    simp [read_events, results, Event.result, this]

theorem commands_read_events (offset : Int) :
    ∀ (rs : List Int) (i : Int),
      commands (read_events offset i rs) = addresses offset i rs.length := by
  intro rs
  induction rs with
  | nil => intro i; rfl
  | cons r rs ih =>
    intro i
    have := ih (i + 1)
    simp only [commands] at this
    simp [read_events, commands, Event.command, addresses, this]

theorem results_write_events (offset : Int) :
    ∀ (ps : List (Int × Int)) (i : Int),
      results (write_events offset i ps) = ps.map Prod.snd := by
  intro ps
  induction ps with
  | nil => intro i; rfl
  | cons p ps ih =>
    intro i
    have := ih (i + 1)
    simp only [results] at this
    simp [write_events, results, Event.result, this]

theorem commands_write_events (offset : Int) :
    ∀ (ps : List (Int × Int)) (i : Int),
      commands (write_events offset i ps) = addresses offset i ps.length := by
  intro ps
  induction ps with
  | nil => intro i; rfl
  | cons p ps ih =>
    intro i
    have := ih (i + 1)
    simp only [commands] at this
    simp [write_events, commands, Event.command, addresses, this]

theorem addresses_length (offset : Int) :
    ∀ (n : Nat) (i : Int), (addresses offset i n).length = n := by
  intro n
  induction n with
  | zero => intro i; rfl
  | succ n ih => intro i; simp [addresses, ih]

theorem addresses_get (offset : Int) :
    ∀ (n : Nat) (i : Int) (t : Nat), t < n →
      (addresses offset i n)[t]? = some (u8 (offset + i + t)) := by
  intro n
  induction n with
  | zero => intro i t h; omega
  | succ n ih =>
    intro i t h
    cases t with
    | zero => simp [addresses]
    | succ t =>
      simp only [addresses, List.getElem?_cons_succ]
      rw [ih (i + 1) t (by omega)]
      congr 2; push_cast; ring

theorem addresses_append_one (offset : Int) :
    ∀ (n : Nat) (i : Int),
      addresses offset i n ++ [u8 (offset + i + n)] = addresses offset i (n + 1) := by
  intro n
  induction n with
  | zero => intro i; simp [addresses]
  | succ n ih =>
    intro i
    have := ih (i + 1)
    simp only [addresses, List.cons_append, List.cons.injEq, true_and] at this ⊢
    rw [← this]
    congr 3; push_cast; ring

/-! ## The calls inside the device -/

/-- The outcome of a read inside the device, for a requested length that is a
non-negative `ssize_t`: the call returns, its run has one of the three shapes
over `iters n` iterations, a finished run returns the clamped length `n` and
advances the offset by it, any other returns the code and leaves the offset. -/
theorem at24_read_in_range {σ : Type} (client : i2c_client σ) (ldev : at24_device)
    (dev : σ) (user : UserMem) (length offset : Int)
    (hsize : ldev.size_in_bytes < 4294967296)
    (hoff : 0 ≤ offset ∧ offset < ldev.size_in_bytes - 1)
    (hlen : 0 ≤ length ∧ length < 9223372036854775808) :
    ∃ (r : Outcome σ) (o : Option Int),
      at24_read client ldev dev user length offset = some r ∧
      ReadShape offset 0 (iters (min length (ldev.size_in_bytes - offset - 1))) user o
        r.user r.trace ∧
      ((o = none ∧ r.ret = min length (ldev.size_in_bytes - offset - 1)
          ∧ r.pos = offset + min length (ldev.size_in_bytes - offset - 1))
        ∨ (∃ c, o = some c ∧ r.ret = c ∧ r.pos = offset)) := by
  obtain ⟨hg, hclamp⟩ := clamp_in_range ldev length offset hsize hoff hlen
  have hn0 : 0 ≤ min length (ldev.size_in_bytes - offset - 1) := by
    rcases le_total length (ldev.size_in_bytes - offset - 1) with h | h
    · rw [min_eq_left h]; omega
    · rw [min_eq_right h]; omega
  have hn1 : min length (ldev.size_in_bytes - offset - 1) < 4294967296 := by
    have := min_le_right length (ldev.size_in_bytes - offset - 1)
    omega
  have heq := at24_read_eq client ldev dev user length offset hg (by rw [hclamp]; omega)
  rw [hclamp] at heq
  obtain ⟨evs, htr, hshape⟩ := read_iter_shape client offset
    (iters (min length (ldev.size_in_bytes - offset - 1))) 0 ⟨dev, user, []⟩
  rcases hres : read_iter client offset
    (iters (min length (ldev.size_in_bytes - offset - 1))) 0 ⟨dev, user, []⟩ with ⟨o, st1⟩
  rw [hres] at heq htr hshape
  simp only [List.nil_append] at htr
  cases o with
  | none =>
    refine ⟨_, none, heq, ?_, Or.inl ⟨rfl, ?_, ?_⟩⟩
    · simpa [finish, htr] using hshape
    · simp only [finish]; exact s64_of_range (by omega) (by omega)
    · simp only [finish]; exact s64_of_range (by omega) (by omega)
  | some c =>
    refine ⟨_, some c, heq, ?_, Or.inr ⟨c, rfl, rfl, rfl⟩⟩
    simpa [finish, htr] using hshape

/-- The outcome of a write inside the device; as `at24_read_in_range`. -/
theorem at24_write_in_range {σ : Type} (client : i2c_client σ) (ldev : at24_device)
    (dev : σ) (user : UserMem) (length offset : Int)
    (hsize : ldev.size_in_bytes < 4294967296)
    (hoff : 0 ≤ offset ∧ offset < ldev.size_in_bytes - 1)
    (hlen : 0 ≤ length ∧ length < 9223372036854775808) :
    ∃ (r : Outcome σ) (o : Option Int),
      at24_write client ldev dev user length offset = some r ∧
      WriteShape offset 0 (iters (min length (ldev.size_in_bytes - offset - 1))) user o
        r.user r.trace ∧
      ((o = none ∧ r.ret = min length (ldev.size_in_bytes - offset - 1)
          ∧ r.pos = offset + min length (ldev.size_in_bytes - offset - 1))
        ∨ (∃ c, o = some c ∧ r.ret = c ∧ r.pos = offset)) := by
  obtain ⟨hg, hclamp⟩ := clamp_in_range ldev length offset hsize hoff hlen
  have hn0 : 0 ≤ min length (ldev.size_in_bytes - offset - 1) := by
    rcases le_total length (ldev.size_in_bytes - offset - 1) with h | h
    · rw [min_eq_left h]; omega
    · rw [min_eq_right h]; omega
  have hn1 : min length (ldev.size_in_bytes - offset - 1) < 4294967296 := by
    have := min_le_right length (ldev.size_in_bytes - offset - 1)
    omega
  have heq := at24_write_eq client ldev dev user length offset hg (by rw [hclamp]; omega)
  rw [hclamp] at heq
  obtain ⟨evs, htr, hshape⟩ := write_iter_shape client offset
    (iters (min length (ldev.size_in_bytes - offset - 1))) 0 ⟨dev, user, []⟩
  rcases hres : write_iter client offset
    (iters (min length (ldev.size_in_bytes - offset - 1))) 0 ⟨dev, user, []⟩ with ⟨o, st1⟩
  rw [hres] at heq htr hshape
  simp only [List.nil_append] at htr
  cases o with
  | none =>
    refine ⟨_, none, heq, ?_, Or.inl ⟨rfl, ?_, ?_⟩⟩
    · simpa [finish, htr] using hshape
    · simp only [finish]; exact s64_of_range (by omega) (by omega)
    · simp only [finish]; exact s64_of_range (by omega) (by omega)
  | some c =>
    refine ⟨_, some c, heq, ?_, Or.inr ⟨c, rfl, rfl, rfl⟩⟩
    simpa [finish, htr] using hshape

theorem iters_le (n length : Int) (h0 : 0 ≤ n) (h : n ≤ length) :
    ((iters n : Nat) : Int) ≤ length := by
  unfold iters; omega

/-! ## C1: the effective length -/

/-- C1: for a capacity above 1 (a `u32`), a session offset with
`0 <= offset < capacity - 1`, a requested length that is a non-negative
`ssize_t` and a caller buffer holding that many bytes, `at24_read` and
`at24_write` return; when every transport call of the call succeeded they
return exactly `min(length, capacity - offset - 1)` and advance the offset by
that amount, so the offset does not pass `capacity - 1`. -/
theorem C1_effective_length {σ : Type} (client : i2c_client σ) (ldev : at24_device)
    (dev : σ) (user : UserMem) (length offset : Int)
    (hsize : 1 < ldev.size_in_bytes ∧ ldev.size_in_bytes < 4294967296)
    (hoff : 0 ≤ offset ∧ offset < ldev.size_in_bytes - 1)
    (hlen : 0 ≤ length ∧ length < 9223372036854775808)
    (hbuf : ∀ i, 0 ≤ i → i < length → user i ≠ none) :
    (∃ r, at24_read client ldev dev user length offset = some r ∧
      ((∀ c ∈ results r.trace, 0 ≤ c) →
        r.ret = min length (ldev.size_in_bytes - offset - 1) ∧
        r.pos = offset + r.ret ∧ r.pos ≤ ldev.size_in_bytes - 1)) ∧
    (∃ r, at24_write client ldev dev user length offset = some r ∧
      ((∀ c ∈ results r.trace, 0 ≤ c) →
        r.ret = min length (ldev.size_in_bytes - offset - 1) ∧
        r.pos = offset + r.ret ∧ r.pos ≤ ldev.size_in_bytes - 1)) := by
  have hn0 : 0 ≤ min length (ldev.size_in_bytes - offset - 1) := by
    rcases le_total length (ldev.size_in_bytes - offset - 1) with h | h
    · rw [min_eq_left h]; omega
    · rw [min_eq_right h]; omega
  have hnl := min_le_left length (ldev.size_in_bytes - offset - 1)
  have hnr := min_le_right length (ldev.size_in_bytes - offset - 1)
  have hit := iters_le _ _ hn0 hnl
  constructor
  · obtain ⟨r, o, heq, ⟨rs, hrs, _, hcases⟩, hfin⟩ :=
      at24_read_in_range client ldev dev user length offset hsize.2 hoff hlen
    refine ⟨r, heq, fun hok => ?_⟩
    rcases hcases with ⟨ho, _, _⟩ | ⟨c, _, hc, _, htr⟩ | ⟨c, _, _, hlt, hnone, _⟩
    · rcases hfin with ⟨_, h1, h2⟩ | ⟨c, h1, _⟩
      · exact ⟨h1, by rw [h2, h1], by rw [h2]; omega⟩
      · rw [ho] at h1; cases h1
    · exfalso
      have := hok c (by rw [htr, results_append, results_read_events]; simp [results,
        Event.result])
      omega
    · exfalso
      exact hbuf (0 + rs.length) (by omega) (by omega) hnone
  · obtain ⟨r, o, heq, ⟨ps, hps, _, hcases⟩, hfin⟩ :=
      at24_write_in_range client ldev dev user length offset hsize.2 hoff hlen
    refine ⟨r, heq, fun hok => ?_⟩
    rcases hcases with ⟨ho, _, _⟩ | ⟨v, c, _, hc, _, htr⟩ | ⟨_, hlt, hnone, _⟩
    · rcases hfin with ⟨_, h1, h2⟩ | ⟨c, h1, _⟩
      · exact ⟨h1, by rw [h2, h1], by rw [h2]; omega⟩
      · rw [ho] at h1; cases h1
    · exfalso
      have := hok c (by rw [htr, results_append, results_write_events]; simp [results,
        Event.result])
      omega
    · exfalso
      exact hbuf (0 + ps.length) (by omega) (by omega) hnone

theorem user_of_ne_none (l : List Int) (i : Int) (h0 : 0 ≤ i) (h1 : i < l.length) :
    user_of l i ≠ none := by
  unfold user_of
  simp only [h0, if_true]
  intro h
  rw [List.getElem?_eq_none_iff] at h
  omega

/-- C1 on a device of capacity 5 at offset 1: a request for 9 bytes against
the byte store transfers `min(9, 5 - 1 - 1) = 3`. -/
theorem C1_effective_length_witness :
    (∃ r, at24_read eeprom ⟨5⟩ (fun _ => 7)
        (user_of [0, 0, 0, 0, 0, 0, 0, 0, 0]) 9 1 = some r ∧
      ((∀ c ∈ results r.trace, 0 ≤ c) →
        r.ret = min 9 (5 - 1 - 1) ∧ r.pos = 1 + r.ret ∧ r.pos ≤ 5 - 1)) ∧
    (∃ r, at24_write eeprom ⟨5⟩ (fun _ => 7)
        (user_of [0, 0, 0, 0, 0, 0, 0, 0, 0]) 9 1 = some r ∧
      ((∀ c ∈ results r.trace, 0 ≤ c) →
        r.ret = min 9 (5 - 1 - 1) ∧ r.pos = 1 + r.ret ∧ r.pos ≤ 5 - 1)) :=
  C1_effective_length eeprom ⟨5⟩ (fun _ => 7) (user_of [0, 0, 0, 0, 0, 0, 0, 0, 0]) 9 1
    (by decide) (by decide) (by decide)
    (fun i h0 h1 => user_of_ne_none _ i h0 (by simpa using h1))

/-- The run behind the witness of C1, evaluated: both calls return 3 and leave
the offset at 4; the read asked registers 1, 2, 3. -/
theorem C1_evaluated :
    (at24_read eeprom ⟨5⟩ (fun _ => 7) (user_of [0, 0, 0, 0, 0, 0, 0, 0, 0]) 9 1).map
        (fun r => (r.ret, r.pos, r.trace))
      = some (3, 4, [Event.read 1 7, Event.read 2 7, Event.read 3 7]) ∧
    (at24_write eeprom ⟨5⟩ (fun _ => 7) (user_of [0, 0, 0, 0, 0, 0, 0, 0, 0]) 9 1).map
        (fun r => (r.ret, r.pos, results r.trace))
      = some (3, 4, [0, 0, 0]) := by
  decide

/-! ## C2: the end-of-file guard -/

/-- For a capacity of at least 1, at or past `capacity - 1` both calls return
0 at once: no transport call, no user access, offset unchanged. -/
theorem eof_guard {σ : Type} (client : i2c_client σ) (ldev : at24_device)
    (dev : σ) (user : UserMem) (length offset : Int)
    (hsize : 1 ≤ ldev.size_in_bytes ∧ ldev.size_in_bytes < 4294967296)
    (hoff : ldev.size_in_bytes - 1 ≤ offset) :
    at24_read client ldev dev user length offset = some ⟨0, offset, dev, user, []⟩ ∧
    at24_write client ldev dev user length offset = some ⟨0, offset, dev, user, []⟩ := by
  have hg : offset ≥ u32 (ldev.size_in_bytes - 1) := by
    unfold u32; omega
  simp only [at24_read, at24_write, hg, if_true, and_self]

/-- C2 at capacity 0 and offset 0, where `offset >= capacity - 1` holds: the
guard compares with `(u32)0 - 1 = 4294967295` and lets the call through. On a
bus whose first call fails with -5, a read and a write of one byte each issue
a transport call to register 0 and return -5, not 0. -/
theorem C2_eof_guard_capacity_zero :
    (0 : Int) ≥ 0 - 1 ∧
    (at24_read (flaky 0 (-5)) ⟨0⟩ 0 (user_of [0]) 1 0).map
        (fun r => (r.ret, r.pos, r.trace)) = some (-5, 0, [Event.read 0 (-5)]) ∧
    (at24_write (flaky 0 (-5)) ⟨0⟩ 0 (user_of [0]) 1 0).map
        (fun r => (r.ret, r.pos, r.trace)) = some (-5, 0, [Event.write 0 0 (-5)]) := by
  decide

/-! ## C5: a transport failure in the middle of a transfer -/

theorem neg_at_last (l : List Int) (c1 : Int) (k : Nat) (c : Int) (hl : ∀ x ∈ l, 0 ≤ x)
    (h : (l ++ [c1])[k]? = some c) (hc : c < 0) : k = l.length ∧ c = c1 := by
  by_cases hk : k < l.length
  · rw [List.getElem?_append_left hk] at h
    have := hl c (List.getElem?_mem h)
    omega
  · rw [List.getElem?_append_right (by omega)] at h
    have : k - l.length = 0 := by
      by_contra hne
      obtain ⟨m, hm⟩ : ∃ m, k - l.length = m + 1 := ⟨k - l.length - 1, by omega⟩
      rw [hm] at h
      simp at h
    rw [this] at h
    simp at h
    exact ⟨by omega, h.symm⟩

theorem failure_is_last (l : List Int) (c1 : Int) (addr : List Int) (a : Int) (k : Nat)
    (c : Int) (hl : ∀ x ∈ l, 0 ≤ x) (h : (l ++ [c1])[k]? = some c) (hc : c < 0)
    (hlen : addr.length = l.length) :
    (l ++ [c1]).length = k + 1 ∧
    (∀ (j : Nat) (c2 : Int), j < k → (l ++ [c1])[j]? = some c2 → 0 ≤ c2) ∧
    (addr ++ [a])[k]? = some a ∧ c1 = c := by
  obtain ⟨hk, hcc⟩ := neg_at_last l c1 k c hl h hc
  refine ⟨by simp [hk], ?_, ?_, hcc.symm⟩
  · intro j c2 hj hj2
    rw [List.getElem?_append_left (by omega)] at hj2
    exact hl c2 (List.getElem?_mem hj2)
  · rw [List.getElem?_append_right (by omega)]
    simp [hk, hlen]

/-- C5: inside the device (capacity a `u32`, `0 <= offset < capacity - 1`,
length a non-negative `ssize_t`) `at24_read` and `at24_write` return, and if
transport call number `k` (from 0) of the call failed with `c < 0`, then the
call made exactly `k + 1` transport calls, the `k` earlier ones succeeded, the
failing one addressed register `(offset + k) mod 256`, the call returns `c`
and the session offset is what it was. -/
theorem C5_transport_failure {σ : Type} (client : i2c_client σ) (ldev : at24_device)
    (dev : σ) (user : UserMem) (length offset : Int)
    (hsize : ldev.size_in_bytes < 4294967296)
    (hoff : 0 ≤ offset ∧ offset < ldev.size_in_bytes - 1)
    (hlen : 0 ≤ length ∧ length < 9223372036854775808) :
    (∃ r, at24_read client ldev dev user length offset = some r ∧
      ∀ (k : Nat) (c : Int), (results r.trace)[k]? = some c → c < 0 →
        (results r.trace).length = k + 1 ∧
        (∀ (j : Nat) (c2 : Int), j < k → (results r.trace)[j]? = some c2 → 0 ≤ c2) ∧
        (commands r.trace)[k]? = some (u8 (offset + k)) ∧
        r.ret = c ∧ r.pos = offset) ∧
    (∃ r, at24_write client ldev dev user length offset = some r ∧
      ∀ (k : Nat) (c : Int), (results r.trace)[k]? = some c → c < 0 →
        (results r.trace).length = k + 1 ∧
        (∀ (j : Nat) (c2 : Int), j < k → (results r.trace)[j]? = some c2 → 0 ≤ c2) ∧
        (commands r.trace)[k]? = some (u8 (offset + k)) ∧
        r.ret = c ∧ r.pos = offset) := by
  constructor
  · obtain ⟨r, o, heq, ⟨rs, hrs, _, hcases⟩, hfin⟩ :=
      at24_read_in_range client ldev dev user length offset hsize hoff hlen
    refine ⟨r, heq, fun k c hk hc => ?_⟩
    rcases hcases with ⟨_, htr, _⟩ | ⟨c1, ho, _, _, htr⟩ | ⟨c1, _, hc1, _, _, htr⟩
    · exfalso
      rw [htr, results_read_events] at hk
      have := hrs c (List.getElem?_mem hk)
      omega
    · have hres : results r.trace = rs ++ [c1] := by
        rw [htr, results_append, results_read_events]; simp [results, Event.result]
      have hcmd : commands r.trace
          = addresses offset 0 rs.length ++ [u8 (offset + 0 + rs.length)] := by
        rw [htr, commands_append, commands_read_events]; simp [commands, Event.command]
      rw [hres] at hk ⊢
      obtain ⟨h1, h2, h3, h4⟩ := failure_is_last rs c1 (addresses offset 0 rs.length)
        (u8 (offset + 0 + rs.length)) k c hrs hk hc (addresses_length _ _ _)
      obtain ⟨hkl, _⟩ := neg_at_last rs c1 k c hrs hk hc
      rcases hfin with ⟨h5, _, _⟩ | ⟨c3, h5, h6, h7⟩
      · rw [ho] at h5; cases h5
      · rw [ho] at h5; cases h5
        refine ⟨h1, h2, ?_, by rw [h6, h4], h7⟩
        rw [hcmd, h3, hkl]; simp
    · exfalso
      have hres : results r.trace = rs ++ [c1] := by
        rw [htr, results_append, results_read_events]; simp [results, Event.result]
      rw [hres] at hk
      have := List.getElem?_mem hk
      rcases List.mem_append.mp this with h | h
      · have := hrs c h; omega
      · simp at h; omega
  · obtain ⟨r, o, heq, ⟨ps, hps, _, hcases⟩, hfin⟩ :=
      at24_write_in_range client ldev dev user length offset hsize hoff hlen
    have hps2 : ∀ x ∈ ps.map Prod.snd, 0 ≤ x := by
      intro x hx
      obtain ⟨p, hp, rfl⟩ := List.mem_map.mp hx
      exact hps p hp
    refine ⟨r, heq, fun k c hk hc => ?_⟩
    rcases hcases with ⟨_, htr, _⟩ | ⟨v, c1, ho, _, _, htr⟩ | ⟨_, _, _, htr⟩
    · exfalso
      rw [htr, results_write_events] at hk
      have := hps2 c (List.getElem?_mem hk)
      omega
    · have hres : results r.trace = ps.map Prod.snd ++ [c1] := by
        rw [htr, results_append, results_write_events]; simp [results, Event.result]
      have hcmd : commands r.trace
          = addresses offset 0 ps.length ++ [u8 (offset + 0 + ps.length)] := by
        rw [htr, commands_append, commands_write_events]; simp [commands, Event.command]
      rw [hres] at hk ⊢
      obtain ⟨h1, h2, h3, h4⟩ := failure_is_last (ps.map Prod.snd) c1
        (addresses offset 0 ps.length)
        (u8 (offset + 0 + ps.length)) k c hps2 hk hc (by simp [addresses_length])
      obtain ⟨hkl, _⟩ := neg_at_last (ps.map Prod.snd) c1 k c hps2 hk hc
      rcases hfin with ⟨h5, _, _⟩ | ⟨c3, h5, h6, h7⟩
      · rw [ho] at h5; cases h5
      · rw [ho] at h5; cases h5
        refine ⟨h1, h2, ?_, by rw [h6, h4], h7⟩
        rw [hcmd, h3, hkl]; simp
    · exfalso
      rw [htr, results_write_events] at hk
      have := hps2 c (List.getElem?_mem hk)
      omega

/-- C5 on a 5-byte transfer starting at offset 1 of a 10-byte device, on a bus
whose third call fails with -5. -/
theorem C5_transport_failure_witness :
    (∃ r, at24_read (flaky 2 (-5)) ⟨10⟩ 0 (user_of [1, 2, 3, 4, 5]) 5 1 = some r ∧
      ∀ (k : Nat) (c : Int), (results r.trace)[k]? = some c → c < 0 →
        (results r.trace).length = k + 1 ∧
        (∀ (j : Nat) (c2 : Int), j < k → (results r.trace)[j]? = some c2 → 0 ≤ c2) ∧
        (commands r.trace)[k]? = some (u8 (1 + k)) ∧
        r.ret = c ∧ r.pos = 1) ∧
    (∃ r, at24_write (flaky 2 (-5)) ⟨10⟩ 0 (user_of [1, 2, 3, 4, 5]) 5 1 = some r ∧
      ∀ (k : Nat) (c : Int), (results r.trace)[k]? = some c → c < 0 →
        (results r.trace).length = k + 1 ∧
        (∀ (j : Nat) (c2 : Int), j < k → (results r.trace)[j]? = some c2 → 0 ≤ c2) ∧
        (commands r.trace)[k]? = some (u8 (1 + k)) ∧
        r.ret = c ∧ r.pos = 1) :=
  C5_transport_failure (flaky 2 (-5)) ⟨10⟩ 0 (user_of [1, 2, 3, 4, 5]) 5 1
    (by decide) (by decide) (by decide)

/-- The scenario of C5 evaluated: the third byte of a 5-byte write from offset
1 fails; two bytes were transacted, the failing call addresses register 3, the
call returns -5 and the offset is still 1. The same for the read. -/
theorem C5_evaluated :
    (at24_write (flaky 2 (-5)) ⟨10⟩ 0 (user_of [1, 2, 3, 4, 5]) 5 1).map
        (fun r => (r.ret, r.pos, r.trace))
      = some (-5, 1, [Event.write 1 1 0, Event.delay 8, Event.write 2 2 0, Event.delay 8,
          Event.write 3 3 (-5)]) ∧
    (at24_read (flaky 2 (-5)) ⟨10⟩ 0 (user_of [1, 2, 3, 4, 5]) 5 1).map
        (fun r => (r.ret, r.pos, r.trace, user_bytes r.user 5))
      = some (-5, 1, [Event.read 1 0, Event.read 2 0, Event.read 3 (-5)],
          [some 0, some 0, some 3, some 4, some 5]) := by
  decide

/-! ## C6: the register addresses of a transfer -/

theorem addresses_eq_map (offset : Int) (n : Nat) :
    addresses offset 0 n = (absolute_offsets offset n).map u8 := by
  apply List.ext_getElem?
  intro t
  by_cases ht : t < n
  · rw [addresses_get offset n 0 t ht]
    simp [absolute_offsets, List.getElem?_range ht]
  · rw [List.getElem?_eq_none (by rw [addresses_length]; omega)]
    rw [List.getElem?_eq_none (by simp [absolute_offsets]; omega)]

theorem absolute_offsets_small (offset : Int) (n : Nat) (h0 : 0 ≤ offset)
    (h : offset + n ≤ 256) :
    (absolute_offsets offset n).map u8 = absolute_offsets offset n := by
  unfold absolute_offsets
  rw [List.map_map]
  apply List.map_congr_left
  intro t ht
  have := List.mem_range.mp ht
  simp only [Function.comp, u8]
  omega

theorem iters_small (n : Int) (h : n ≤ 2147483648) : iters n = n.toNat := by
  unfold iters
  rw [min_eq_left h]

/-- C6 refuted at capacity 300, offset 256: a one-byte read (and write) hands
register 0 to the transport, not the absolute offset 256. -/
theorem C6_register_wraps :
    (at24_read eeprom ⟨300⟩ (fun _ => 7) (user_of [0]) 1 256).map
        (fun r => (r.ret, commands r.trace)) = some (1, [0]) ∧
    (at24_write eeprom ⟨300⟩ (fun _ => 7) (user_of [0]) 1 256).map
        (fun r => (r.ret, commands r.trace)) = some (1, [0]) ∧
    absolute_offsets 256 1 = [256] ∧
    (at24_read eeprom ⟨300⟩ (fun _ => 7) (user_of [0]) 1 256).map
        (fun r => commands r.trace) ≠ some (absolute_offsets 256 1) := by
  decide

/-- C6 as amended: inside the device, for a requested length of at most
`INT_MAX` and a caller buffer holding that many bytes, when every transport
call succeeded `at24_read` and `at24_write` made one call per byte of the
effective length `n = min(length, capacity - offset - 1)`, in ascending order,
and the register address of byte `i` is `(offset + i) mod 256`. For a capacity
of at most 257 these are the absolute offsets `offset, ..., offset + n - 1`. -/
theorem C6_register_sequence {σ : Type} (client : i2c_client σ) (ldev : at24_device)
    (dev : σ) (user : UserMem) (length offset : Int)
    (hsize : ldev.size_in_bytes < 4294967296)
    (hoff : 0 ≤ offset ∧ offset < ldev.size_in_bytes - 1)
    (hlen : 0 ≤ length ∧ length ≤ 2147483647)
    (hbuf : ∀ i, 0 ≤ i → i < length → user i ≠ none) :
    (∃ r, at24_read client ldev dev user length offset = some r ∧
      ((∀ c ∈ results r.trace, 0 ≤ c) →
        commands r.trace = (absolute_offsets offset
          (min length (ldev.size_in_bytes - offset - 1)).toNat).map u8 ∧
        (ldev.size_in_bytes ≤ 257 → commands r.trace = absolute_offsets offset
          (min length (ldev.size_in_bytes - offset - 1)).toNat))) ∧
    (∃ r, at24_write client ldev dev user length offset = some r ∧
      ((∀ c ∈ results r.trace, 0 ≤ c) →
        commands r.trace = (absolute_offsets offset
          (min length (ldev.size_in_bytes - offset - 1)).toNat).map u8 ∧
        (ldev.size_in_bytes ≤ 257 → commands r.trace = absolute_offsets offset
          (min length (ldev.size_in_bytes - offset - 1)).toNat))) := by
  have hn0 : 0 ≤ min length (ldev.size_in_bytes - offset - 1) := by
    rcases le_total length (ldev.size_in_bytes - offset - 1) with h | h
    · rw [min_eq_left h]; omega
    · rw [min_eq_right h]; omega
  have hnl := min_le_left length (ldev.size_in_bytes - offset - 1)
  have hnr := min_le_right length (ldev.size_in_bytes - offset - 1)
  have hit := iters_small (min length (ldev.size_in_bytes - offset - 1)) (by omega)
  have hsmall : ldev.size_in_bytes ≤ 257 →
      (absolute_offsets offset (min length (ldev.size_in_bytes - offset - 1)).toNat).map u8
        = absolute_offsets offset (min length (ldev.size_in_bytes - offset - 1)).toNat :=
    fun h => absolute_offsets_small _ _ hoff.1 (by omega)
  constructor
  · obtain ⟨r, o, heq, ⟨rs, hrs, _, hcases⟩, _⟩ :=
      at24_read_in_range client ldev dev user length offset hsize hoff
        ⟨hlen.1, by omega⟩
    refine ⟨r, heq, fun hok => ?_⟩
    rcases hcases with ⟨_, htr, hk⟩ | ⟨c, _, hc, _, htr⟩ | ⟨c, _, _, hlt, hnone, _⟩
    · have : commands r.trace = (absolute_offsets offset
          (min length (ldev.size_in_bytes - offset - 1)).toNat).map u8 := by
        rw [htr, commands_read_events, hk, hit, addresses_eq_map]
      exact ⟨this, fun h => by rw [this, hsmall h]⟩
    · exfalso
      have := hok c (by rw [htr, results_append, results_read_events]; simp [results,
        Event.result])
      omega
    · exfalso
      exact hbuf (0 + rs.length) (by omega) (by omega) hnone
  · obtain ⟨r, o, heq, ⟨ps, hps, _, hcases⟩, _⟩ :=
      at24_write_in_range client ldev dev user length offset hsize hoff
        ⟨hlen.1, by omega⟩
    refine ⟨r, heq, fun hok => ?_⟩
    rcases hcases with ⟨_, htr, hk⟩ | ⟨v, c, _, hc, _, htr⟩ | ⟨_, hlt, hnone, _⟩
    · have : commands r.trace = (absolute_offsets offset
          (min length (ldev.size_in_bytes - offset - 1)).toNat).map u8 := by
        rw [htr, commands_write_events, hk, hit, addresses_eq_map]
      exact ⟨this, fun h => by rw [this, hsmall h]⟩
    · exfalso
      have := hok c (by rw [htr, results_append, results_write_events]; simp [results,
        Event.result])
      omega
    · exfalso
      exact hbuf (0 + ps.length) (by omega) (by omega) hnone

/-- C6 as amended, on a 300-byte device: three bytes from offset 255. -/
theorem C6_register_sequence_witness :
    (∃ r, at24_read eeprom ⟨300⟩ (fun _ => 7) (user_of [0, 0, 0]) 3 255 = some r ∧
      ((∀ c ∈ results r.trace, 0 ≤ c) →
        commands r.trace = (absolute_offsets 255 (min (3 : Int) (300 - 255 - 1)).toNat).map u8 ∧
        ((300 : Int) ≤ 257 → commands r.trace
          = absolute_offsets 255 (min (3 : Int) (300 - 255 - 1)).toNat))) ∧
    (∃ r, at24_write eeprom ⟨300⟩ (fun _ => 7) (user_of [0, 0, 0]) 3 255 = some r ∧
      ((∀ c ∈ results r.trace, 0 ≤ c) →
        commands r.trace = (absolute_offsets 255 (min (3 : Int) (300 - 255 - 1)).toNat).map u8 ∧
        ((300 : Int) ≤ 257 → commands r.trace
          = absolute_offsets 255 (min (3 : Int) (300 - 255 - 1)).toNat))) :=
  C6_register_sequence eeprom ⟨300⟩ (fun _ => 7) (user_of [0, 0, 0]) 3 255
    (by decide) (by decide) (by decide)
    (fun i h0 h1 => user_of_ne_none _ i h0 (by simpa using h1))

/-- The run behind the witness of C6: registers 255, 0, 1. -/
theorem C6_evaluated :
    (at24_read eeprom ⟨300⟩ (fun _ => 7) (user_of [0, 0, 0]) 3 255).map
        (fun r => (r.ret, r.pos, commands r.trace)) = some (3, 258, [255, 0, 1]) := by
  decide

/-! ## C7: the session-offset invariant -/

/-- For a capacity of at least 1 the three file operations keep the session
offset in `[0, capacity]`: a seek moves it only when it succeeds, to the
returned target; a read or write (length a non-negative `ssize_t`) returns,
and moves it only by the non-negative count it returns. -/
theorem session_offset_invariant {σ : Type} (client : i2c_client σ) (ldev : at24_device)
    (dev : σ) (user : UserMem) (length offset off whence : Int)
    (hsize : 1 ≤ ldev.size_in_bytes ∧ ldev.size_in_bytes < 4294967296)
    (hpos : 0 ≤ offset ∧ offset ≤ ldev.size_in_bytes)
    (hlen : 0 ≤ length ∧ length < 9223372036854775808) :
    (0 ≤ (at24_llseek ldev offset off whence).2 ∧
      (at24_llseek ldev offset off whence).2 ≤ ldev.size_in_bytes ∧
      ((at24_llseek ldev offset off whence).2 ≠ offset →
        (at24_llseek ldev offset off whence).1 = (at24_llseek ldev offset off whence).2)) ∧
    (∃ r, at24_read client ldev dev user length offset = some r ∧
      0 ≤ r.pos ∧ r.pos ≤ ldev.size_in_bytes ∧
      (r.pos ≠ offset → 0 ≤ r.ret ∧ r.pos = offset + r.ret)) ∧
    (∃ r, at24_write client ldev dev user length offset = some r ∧
      0 ≤ r.pos ∧ r.pos ≤ ldev.size_in_bytes ∧
      (r.pos ≠ offset → 0 ≤ r.ret ∧ r.pos = offset + r.ret)) := by
  refine ⟨?_, ?_, ?_⟩
  · unfold at24_llseek
    split
    · exact ⟨hpos.1, hpos.2, fun h => absurd rfl h⟩
    · split_ifs with h
      · exact ⟨hpos.1, hpos.2, fun h => absurd rfl h⟩
      · exact ⟨by omega, by omega, fun _ => rfl⟩
  · by_cases hin : offset < ldev.size_in_bytes - 1
    · have hn0 : 0 ≤ min length (ldev.size_in_bytes - offset - 1) := by
        rcases le_total length (ldev.size_in_bytes - offset - 1) with h | h
        · rw [min_eq_left h]; omega
        · rw [min_eq_right h]; omega
      have hnr := min_le_right length (ldev.size_in_bytes - offset - 1)
      obtain ⟨r, o, heq, _, hfin⟩ :=
        at24_read_in_range client ldev dev user length offset hsize.2 ⟨hpos.1, hin⟩ hlen
      refine ⟨r, heq, ?_⟩
      rcases hfin with ⟨_, h1, h2⟩ | ⟨c, _, _, h2⟩
      · exact ⟨by omega, by omega, fun _ => ⟨by omega, by omega⟩⟩
      · exact ⟨by omega, by omega, fun h => absurd h2 h⟩
    · refine ⟨_, (eof_guard client ldev dev user length offset hsize (by omega)).1, ?_⟩
      exact ⟨hpos.1, hpos.2, fun h => absurd rfl h⟩
  · by_cases hin : offset < ldev.size_in_bytes - 1
    · have hn0 : 0 ≤ min length (ldev.size_in_bytes - offset - 1) := by
        rcases le_total length (ldev.size_in_bytes - offset - 1) with h | h
        · rw [min_eq_left h]; omega
        · rw [min_eq_right h]; omega
      have hnr := min_le_right length (ldev.size_in_bytes - offset - 1)
      obtain ⟨r, o, heq, _, hfin⟩ :=
        at24_write_in_range client ldev dev user length offset hsize.2 ⟨hpos.1, hin⟩ hlen
      refine ⟨r, heq, ?_⟩
      rcases hfin with ⟨_, h1, h2⟩ | ⟨c, _, _, h2⟩
      · exact ⟨by omega, by omega, fun _ => ⟨by omega, by omega⟩⟩
      · exact ⟨by omega, by omega, fun h => absurd h2 h⟩
    · refine ⟨_, (eof_guard client ldev dev user length offset hsize (by omega)).2, ?_⟩
      exact ⟨hpos.1, hpos.2, fun h => absurd rfl h⟩

/-- A stretch of the loop of `at24_read` in which the counter does not wrap
and the loop condition holds: `k` iterations, then the loop goes on from the
(possibly wrapped) counter. -/
theorem read_loop_run {σ : Type} (client : i2c_client σ) (offset length : Int) :
    ∀ (k fuel : Nat) (j : Int) (st : Io σ), -2147483648 ≤ j → j < 2147483648 →
      j + k ≤ 2147483648 → (∀ t : Nat, t < k → u64 (j + t) < length) → k ≤ fuel →
      read_loop client offset length fuel j st
        = match read_iter client offset k j st with
          | (some c, st1) => some (some c, st1)
          | (none, st1) => read_loop client offset length (fuel - k) (s32 (j + k)) st1 := by
  intro k
  induction k with
  | zero =>
    intro fuel j st h0 h1 _ _ _
    simp [read_iter, s32_of_range h0 h1]
  | succ k ih =>
    intro fuel j st h0 h1 h2 hc hfuel
    obtain ⟨f, rfl⟩ : ∃ f, fuel = f + 1 := ⟨fuel - 1, by omega⟩
    have hc0 : u64 j < length := by simpa using hc 0 (by omega)
    simp only [read_loop, read_iter, hc0, if_true, command_eq]
    split
    · rfl
    · split
      · rfl
      · next user hput =>
        have e : j + ((k + 1 : Nat) : Int) = j + 1 + (k : Int) := by push_cast; ring
        by_cases hw : j + 1 < 2147483648
        · rw [s32_of_range (by omega) hw]
          rw [ih f (j + 1) _ (by omega) hw (by omega) _ (by omega)]
          · rw [e, Nat.add_sub_add_right]
          · intro t ht
            have := hc (t + 1) (by omega)
            rw [show j + 1 + (t : Int) = j + ((t + 1 : Nat) : Int) by push_cast; ring]
            exact this
        · have hk : k = 0 := by omega
          subst hk
          simp [read_iter]

theorem read_iter_never_fails {σ : Type} (client : i2c_client σ) (offset : Int)
    (hok : ∀ s c, 0 ≤ (client.i2c_smbus_read_byte_data s c).1) :
    ∀ (k : Nat) (i : Int) (st : Io σ), (∀ t, st.user t ≠ none) →
      (read_iter client offset k i st).1 = none ∧
      ∀ t, (read_iter client offset k i st).2.user t ≠ none := by
  intro k
  induction k with
  | zero => intro i st h; exact ⟨rfl, h⟩
  | succ k ih =>
    intro i st h
    simp only [read_iter]
    split
    · next hneg => have := hok st.dev (u8 (offset + i)); omega
    · split
      · next hput => exact absurd (put_user_eq_none hput) (h i)
      · next user hput =>
        apply ih
        intro t
        rw [put_user_eq_some hput]
        by_cases ht : t = i
        · simp [ht]
        · simp only [ht, if_false]; exact h t

/-- At capacity 0 and offset 0 the guard does not stop a read: the clamp
yields `(size_t)-1`, and on a transport that never fails, with user memory
accessible all around `buffer`, the loop ends only when the wrapped counter
reaches -1; the call then returns -1 and leaves the offset at -1. -/
theorem read_capacity_zero {σ : Type} (client : i2c_client σ) (dev : σ) (user : UserMem)
    (length : Int)
    (hok : ∀ s c, 0 ≤ (client.i2c_smbus_read_byte_data s c).1)
    (huser : ∀ t, user t ≠ none)
    (hlen : 0 ≤ length ∧ length < 9223372036854775808) :
    ∃ r, at24_read client ⟨0⟩ dev user length 0 = some r ∧ r.ret = -1 ∧ r.pos = -1 := by
  have hg : ¬ (0 : Int) ≥ u32 ((0 : Int) - 1) := by decide
  have hclamp : clamp_length ⟨0⟩ length 0 = 18446744073709551615 := by
    unfold clamp_length u64 s64
    rw [min_eq_left (by simp only []; omega)]
    simp only []
    omega
  have h1 := read_loop_run client 0 18446744073709551615 2147483648 LOOP_FUEL 0
    ⟨dev, user, []⟩ (by decide) (by decide) (by decide)
    (fun t ht => by unfold u64; omega) (by decide)
  obtain ⟨hn1, hu1⟩ := read_iter_never_fails client 0 hok 2147483648 0 ⟨dev, user, []⟩ huser
  rcases hr1 : read_iter client 0 2147483648 0 ⟨dev, user, []⟩ with ⟨o1, st1⟩
  rw [hr1] at h1 hn1 hu1
  simp only at hn1
  subst hn1
  simp only at h1
  have h2 := read_loop_run client 0 18446744073709551615 2147483647
    (LOOP_FUEL - 2147483648) (-2147483648) st1 (by decide) (by decide) (by decide)
    (fun t ht => by unfold u64; omega) (by decide)
  obtain ⟨hn2, _⟩ := read_iter_never_fails client 0 hok 2147483647 (-2147483648) st1 hu1
  rcases hr2 : read_iter client 0 2147483647 (-2147483648) st1 with ⟨o2, st2⟩
  rw [hr2] at h2 hn2
  simp only at hn2
  subst hn2
  simp only at h2
  have e1 : s32 ((0 : Int) + ((2147483648 : Nat) : Int)) = -2147483648 := by decide
  have e2 : s32 ((-2147483648 : Int) + ((2147483647 : Nat) : Int)) = -1 := by decide
  have e3 : LOOP_FUEL - 2147483648 - 2147483647 = 0 + 1 := by decide
  rw [e1] at h1
  rw [e2, e3] at h2
  have h3 : read_loop client 0 18446744073709551615 (0 + 1) (-1) st2 = some (none, st2) := by
    simp only [read_loop]
    rw [if_neg (by decide)]
  refine ⟨finish 0 18446744073709551615 (none, st2), ?_,
    by simp only [finish]; decide, by simp only [finish]; decide⟩
  simp only [at24_read, hg, if_false, hclamp, h1, h2, h3, Option.map_some']

/-- C7 at capacity 0, session offset 0 (inside `[0, capacity]`): a one-byte
read from the never-failing byte store, with user memory accessible all around
the buffer, returns -1 and leaves the session offset at -1, outside
`[0, capacity]`. -/
theorem C7_offset_leaves_range_capacity_zero :
    ∃ r, at24_read eeprom ⟨0⟩ (fun _ => 0) (fun _ => some 0) 1 0 = some r ∧
      r.ret = -1 ∧ r.pos = -1 ∧ ¬ (0 ≤ r.pos ∧ r.pos ≤ 0) := by
  obtain ⟨r, h1, h2, h3⟩ := read_capacity_zero eeprom (fun _ => 0) (fun _ => some 0) 1
    (fun s c => by simp only [eeprom, u8]; omega) (fun t => by simp) (by decide)
  exact ⟨r, h1, h2, h3, by omega⟩

/-! ## C4: the round trip -/

theorem u8_small {x : Int} (h0 : 0 ≤ x) (h1 : x < 256) : u8 x = x := by
  unfold u8; omega

theorem write_iter_eeprom :
    ∀ (k : Nat) (i : Int) (st : Io (Int → Int)), 0 ≤ i → i + k ≤ 256 →
      (∀ t : Nat, t < k → st.user (i + t) ≠ none) →
      (write_iter eeprom 0 k i st).1 = none ∧
      ∀ c, (write_iter eeprom 0 k i st).2.dev c
        = if i ≤ c ∧ c < i + k then sent st.user c else st.dev c := by
  intro k
  induction k with
  | zero =>
    intro i st _ _ _
    refine ⟨rfl, fun c => ?_⟩
    rw [if_neg (by simp only [Nat.cast_zero]; omega)]
    rfl
  | succ k ih =>
    intro i st h0 h1 hacc
    obtain ⟨b, hb⟩ : ∃ b, st.user i = some b := by
      have := hacc 0 (by omega)
      simp only [Nat.cast_zero, add_zero] at this
      exact Option.ne_none_iff_exists'.mp this
    have hg : get_user st.user i = some (u8 b) := by simp [get_user, hb]
    have hnn : ¬ (eeprom.i2c_smbus_write_byte_data st.dev (u8 (0 + i)) (u8 b)).1 < 0 := by
      simp [eeprom]
    simp only [write_iter, hg, hnn, if_false]
    obtain ⟨ih1, ih2⟩ := ih (i + 1)
      ⟨(eeprom.i2c_smbus_write_byte_data st.dev (u8 (0 + i)) (u8 b)).2, st.user,
        st.trace ++ [Event.write (u8 (0 + i)) (u8 b)
          (eeprom.i2c_smbus_write_byte_data st.dev (u8 (0 + i)) (u8 b)).1]
          ++ [Event.delay AT24_I2C_WRITE_DELAY]⟩
      (by omega) (by push_cast at h1 ⊢; omega)
      (fun t ht => by
        have := hacc (t + 1) (by omega)
        rw [show i + 1 + (t : Int) = i + ((t + 1 : Nat) : Int) by push_cast; ring]
        exact this)
    refine ⟨ih1, fun c => ?_⟩
    rw [ih2 c]
    have hu : u8 (0 + i) = i := by rw [zero_add]; exact u8_small h0 (by omega)
    simp only [eeprom, hu]
    push_cast
    by_cases hc : c = i
    · subst hc
      rw [if_neg (by omega), if_pos (by omega)]
      simp [sent, hg]
    · by_cases hr : i + 1 ≤ c ∧ c < i + 1 + k
      · rw [if_pos hr, if_pos (by omega)]
      · rw [if_neg hr, if_neg hc, if_neg (by omega)]

theorem read_iter_eeprom :
    ∀ (k : Nat) (i : Int) (st : Io (Int → Int)), 0 ≤ i → i + k ≤ 256 →
      (∀ t : Nat, t < k → st.user (i + t) ≠ none) →
      (read_iter eeprom 0 k i st).1 = none ∧
      (∀ c, (read_iter eeprom 0 k i st).2.user c
        = if i ≤ c ∧ c < i + k then some (u8 (u8 (st.dev c))) else st.user c) ∧
      commands (read_iter eeprom 0 k i st).2.trace
        = commands st.trace ++ addresses 0 i k := by
  intro k
  induction k with
  | zero =>
    intro i st _ _ _
    refine ⟨rfl, fun c => ?_, by simp [read_iter, addresses]⟩
    rw [if_neg (by simp only [Nat.cast_zero]; omega)]
    rfl
  | succ k ih =>
    intro i st h0 h1 hacc
    obtain ⟨b, hb⟩ : ∃ b, st.user i = some b := by
      have := hacc 0 (by omega)
      simp only [Nat.cast_zero, add_zero] at this
      exact Option.ne_none_iff_exists'.mp this
    have hu : u8 (0 + i) = i := by rw [zero_add]; exact u8_small h0 (by omega)
    have hr : eeprom.i2c_smbus_read_byte_data st.dev i = (u8 (st.dev i), st.dev) := rfl
    have hnn : ¬ u8 (st.dev i) < 0 := by unfold u8; omega
    have hp : put_user st.user i (u8 (u8 (st.dev i)))
        = some (fun j => if j = i then some (u8 (u8 (st.dev i))) else st.user j) := by
      simp [put_user, hb]
    simp only [read_iter, hu, hr, hnn, if_false, hp]
    obtain ⟨ih1, ih2, ih3⟩ := ih (i + 1)
      ⟨st.dev, fun j => if j = i then some (u8 (u8 (st.dev i))) else st.user j,
        st.trace ++ [Event.read i (u8 (st.dev i))]⟩
      (by omega) (by push_cast at h1 ⊢; omega)
      (fun t ht => by
        have := hacc (t + 1) (by omega)
        rw [show i + 1 + (t : Int) = i + ((t + 1 : Nat) : Int) by push_cast; ring]
        have hne : ¬ (i + ((t + 1 : Nat) : Int) = i) := by push_cast; omega
        simp only [hne, if_false]
        exact this)
    refine ⟨ih1, fun c => ?_, ?_⟩
    · rw [ih2 c]
      push_cast
      by_cases hc : c = i
      · subst hc
        rw [if_neg (by omega), if_pos (by omega)]
        simp
      · by_cases hr : i + 1 ≤ c ∧ c < i + 1 + k
        · rw [if_pos hr, if_pos (by omega)]
        · rw [if_neg hr, if_neg hc, if_neg (by omega)]
    · rw [ih3]
      simp [commands, Event.command, addresses, u8_small h0 (show i < 256 by omega)]

theorem mem_addresses (offset i : Int) (n : Nat) (c : Int) (h : c ∈ addresses offset i n) :
    ∃ t : Nat, t < n ∧ c = u8 (offset + i + t) := by
  obtain ⟨t, ht⟩ := List.mem_iff_getElem?.mp h
  have hlt : t < n := by
    by_contra hge
    rw [List.getElem?_eq_none (by rw [addresses_length]; omega)] at ht
    cases ht
  rw [addresses_get offset n i t hlt] at ht
  exact ⟨t, hlt, (Option.some.inj ht).symm⟩

theorem user_of_get (w : List Int) (i : Nat) (b : Int) (h : w[i]? = some b) :
    user_of w (i : Int) = some b := by
  unfold user_of
  simp [h]

theorem write_iter_add {σ : Type} (client : i2c_client σ) (offset : Int) :
    ∀ (k1 k2 : Nat) (i : Int) (st : Io σ),
      write_iter client offset (k1 + k2) i st
        = match write_iter client offset k1 i st with
          | (some c, st1) => (some c, st1)
          | (none, st1) => write_iter client offset k2 (i + k1) st1 := by
  intro k1
  induction k1 with
  | zero => intro k2 i st; simp [write_iter]
  | succ k1 ih =>
    intro k2 i st
    rw [show k1 + 1 + k2 = (k1 + k2) + 1 by omega]
    simp only [write_iter]
    split
    · rfl
    · split
      · rfl
      · rw [ih]
        rw [show i + ((k1 + 1 : Nat) : Int) = i + 1 + (k1 : Int) by push_cast; ring]

theorem read_iter_add {σ : Type} (client : i2c_client σ) (offset : Int) :
    ∀ (k1 k2 : Nat) (i : Int) (st : Io σ),
      read_iter client offset (k1 + k2) i st
        = match read_iter client offset k1 i st with
          | (some c, st1) => (some c, st1)
          | (none, st1) => read_iter client offset k2 (i + k1) st1 := by
  intro k1
  induction k1 with
  | zero => intro k2 i st; simp [read_iter]
  | succ k1 ih =>
    intro k2 i st
    rw [show k1 + 1 + k2 = (k1 + k2) + 1 by omega]
    simp only [read_iter]
    split
    · rfl
    · split
      · rfl
      · rw [ih]
        rw [show i + ((k1 + 1 : Nat) : Int) = i + 1 + (k1 : Int) by push_cast; ring]

theorem write_iter_user {σ : Type} (client : i2c_client σ) (offset : Int) (k : Nat)
    (i : Int) (st : Io σ) : (write_iter client offset k i st).2.user = st.user := by
  obtain ⟨_, _, _, _, h, _⟩ := write_iter_shape client offset k i st
  exact h

theorem read_iter_eeprom_frame (offset : Int) :
    ∀ (k : Nat) (i : Int) (st : Io (Int → Int)),
      (∀ t : Nat, t < k → st.user (i + t) ≠ none) →
      (read_iter eeprom offset k i st).1 = none ∧
      ∀ c, ¬ (i ≤ c ∧ c < i + k) → (read_iter eeprom offset k i st).2.user c = st.user c := by
  intro k
  induction k with
  | zero => intro i st _; exact ⟨rfl, fun c _ => rfl⟩
  | succ k ih =>
    intro i st hacc
    obtain ⟨b, hb⟩ : ∃ b, st.user i = some b := by
      have := hacc 0 (by omega)
      simp only [Nat.cast_zero, add_zero] at this
      exact Option.ne_none_iff_exists'.mp this
    have hr : eeprom.i2c_smbus_read_byte_data st.dev (u8 (offset + i))
        = (u8 (st.dev (u8 (offset + i))), st.dev) := rfl
    have hnn : ¬ u8 (st.dev (u8 (offset + i))) < 0 := by unfold u8; omega
    have hp : put_user st.user i (u8 (u8 (st.dev (u8 (offset + i)))))
        = some (fun j => if j = i then some (u8 (u8 (st.dev (u8 (offset + i)))))
            else st.user j) := by
      simp [put_user, hb]
    simp only [read_iter, hr, hnn, if_false, hp]
    obtain ⟨ih1, ih2⟩ := ih (i + 1)
      ⟨st.dev, fun j => if j = i then some (u8 (u8 (st.dev (u8 (offset + i)))))
          else st.user j,
        st.trace ++ [Event.read (u8 (offset + i)) (u8 (st.dev (u8 (offset + i))))]⟩
      (fun t ht => by
        have := hacc (t + 1) (by omega)
        rw [show i + 1 + (t : Int) = i + ((t + 1 : Nat) : Int) by push_cast; ring]
        have hne : ¬ (i + ((t + 1 : Nat) : Int) = i) := by push_cast; omega
        simp only [hne, if_false]
        exact this)
    refine ⟨ih1, fun c hc => ?_⟩
    rw [ih2 c (by push_cast at hc ⊢; omega)]
    simp only []
    rw [if_neg (by push_cast at hc; omega)]

theorem long_w_length : long_w.length = 257 := by
  show (1 :: (List.replicate 255 0 ++ [2])).length = 257
  rw [List.length_cons, List.length_append, List.length_replicate]
  rfl

theorem long_w_accessible (t : Nat) (ht : t < 257) : user_of long_w (0 + (t : Int)) ≠ none :=
  user_of_ne_none long_w (0 + (t : Int)) (by omega) (by rw [long_w_length]; omega)

set_option maxRecDepth 10000 in
theorem long_w_last : get_user (user_of long_w) (0 + ((256 : Nat) : Int)) = some 2 := by
  decide

/-- C4 refuted at capacity 258: after writing 257 bytes that start with 1 and
end with 2, seeking to 0 and reading 258 bytes, the read returns 257 bytes but
the first one is 2, the last byte written, not 1: offset 256 went to register
0. -/
theorem C4_round_trip_aliases :
    long_w.length = 257 ∧ long_w[0]? = some 1 ∧
    ∃ r, write_seek_read eeprom ⟨258⟩ (fun _ => 0) long_w (fun _ => some 0) = some r ∧
      r.ret = 257 ∧ r.user 0 = some 2 ∧ r.user 0 ≠ long_w[0]? := by
  have hw0 : long_w[0]? = some 1 := by simp only [long_w, List.getElem?_cons_zero]
  refine ⟨long_w_length, hw0, ?_⟩
  -- the write: 256 iterations inside the register range, then offset 256
  have hwr := at24_write_eq eeprom ⟨258⟩ (fun _ => 0) (user_of long_w) long_w.length 0
    (by decide) (by rw [long_w_length]; decide)
  rw [long_w_length] at hwr
  rw [show clamp_length ⟨258⟩ ((257 : Nat) : Int) 0 = 257 by decide,
    show iters 257 = 256 + 1 by decide, write_iter_add] at hwr
  obtain ⟨hw1, hw2⟩ := write_iter_eeprom 256 0 ⟨fun _ => 0, user_of long_w, []⟩
    (le_refl _) (by decide) (fun t ht => long_w_accessible t (by omega))
  have hw3 := write_iter_user eeprom 0 256 0 ⟨fun _ => 0, user_of long_w, []⟩
  rcases hres1 : write_iter eeprom 0 256 0 ⟨fun _ => 0, user_of long_w, []⟩ with ⟨o1, st1⟩
  rw [hres1] at hwr hw1 hw2 hw3
  simp only at hw1 hw2 hw3
  subst hw1
  have hg : get_user st1.user (0 + ((256 : Nat) : Int)) = some 2 := by
    rw [hw3]; exact long_w_last
  have hu : u8 (0 + (0 + ((256 : Nat) : Int))) = 0 := by decide
  simp only [write_iter, hg, hu] at hwr
  rw [if_neg (by simp [eeprom])] at hwr
  -- the seek
  have hseek : (at24_llseek ⟨258⟩ (s64 (0 + 257)) 0 SEEK_SET).2 = 0 := by decide
  -- the read: 256 iterations, then offset 256 reads register 0 again
  have hrd := fun dev => at24_read_eq eeprom ⟨258⟩ dev (fun _ => some 0) 258 0
    (by decide) (by decide)
  rw [show clamp_length ⟨258⟩ 258 0 = 257 by decide,
    show iters 257 = 256 + 1 by decide] at hrd
  obtain ⟨hr1, hr2, _⟩ := read_iter_eeprom 256 0
    ⟨(eeprom.i2c_smbus_write_byte_data st1.dev 0 2).2, fun _ => some 0, []⟩
    (le_refl _) (by decide) (fun t _ => by simp)
  rcases hres2 : read_iter eeprom 0 256 0
    ⟨(eeprom.i2c_smbus_write_byte_data st1.dev 0 2).2, fun _ => some 0, []⟩ with ⟨o2, st2⟩
  rw [hres2] at hr1 hr2
  simp only at hr1 hr2
  subst hr1
  have h0 : st2.user 0 = some 2 := by
    rw [hr2 0, if_pos (by decide)]
    simp [eeprom]
    decide
  have h256 : ∀ t : Nat, t < 1 → st2.user (0 + ((256 : Nat) : Int) + (t : Int)) ≠ none := by
    intro t ht
    rw [hr2, if_neg (by push_cast; omega)]
    simp
  obtain ⟨hl1, hl2⟩ := read_iter_eeprom_frame 0 1 (0 + ((256 : Nat) : Int)) st2 h256
  rcases hres3 : read_iter eeprom 0 1 (0 + ((256 : Nat) : Int)) st2 with ⟨o3, st3⟩
  rw [hres3] at hl1 hl2
  simp only at hl1 hl2
  subst hl1
  have h3 : st3.user 0 = some 2 := by
    rw [hl2 0 (by decide)]
    exact h0
  refine ⟨⟨s64 257, s64 (0 + 257), st3.dev, st3.user, st3.trace⟩, ?_,
    (by show s64 257 = 257; decide), h3, ?_⟩
  · simp only [write_seek_read, long_w_length, hwr, finish, hseek, hrd, read_iter_add,
      hres2, hres3]
  · show st3.user 0 ≠ long_w[0]?
    rw [h3, hw0]
    decide

/-- On the never-failing byte store a run of the loop of `at24_write` over
accessible user memory reaches the end of the loop. -/
theorem write_iter_eeprom_total (offset : Int) :
    ∀ (k : Nat) (i : Int) (st : Io (Int → Int)),
      (∀ t : Nat, t < k → st.user (i + t) ≠ none) →
      (write_iter eeprom offset k i st).1 = none := by
  intro k
  induction k with
  | zero => intro i st _; rfl
  | succ k ih =>
    intro i st hacc
    obtain ⟨b, hb⟩ : ∃ b, st.user i = some b := by
      have := hacc 0 (by omega)
      simp only [Nat.cast_zero, add_zero] at this
      exact Option.ne_none_iff_exists'.mp this
    have hg : get_user st.user i = some (u8 b) := by simp [get_user, hb]
    have hnn : ¬ (eeprom.i2c_smbus_write_byte_data st.dev (u8 (offset + i)) (u8 b)).1 < 0 := by
      simp [eeprom]
    simp only [write_iter, hg, hnn, if_false]
    exact ih (i + 1) _ (fun t ht => by
      have := hacc (t + 1) (by omega)
      rw [show i + 1 + (t : Int) = i + ((t + 1 : Nat) : Int) by push_cast; ring]
      exact this)

/-- The scenario evaluated: the write of "data" reports 4, leaves the offset
at 4 and register 4 as it was; the read of 5 bytes returns 4, the bytes
d, a, t, a, and leaves the fifth byte of the buffer alone. -/
theorem C4_scenario_evaluated :
    (at24_write eeprom ⟨5⟩ (fun _ => 0) (user_of [100, 97, 116, 97]) 4 0).map
        (fun r => (r.ret, r.pos, r.dev 4)) = some (4, 4, 0) ∧
    (write_seek_read eeprom ⟨5⟩ (fun _ => 0) [100, 97, 116, 97]
        (user_of [0, 0, 0, 0, 0])).map
        (fun r => (r.ret, r.pos, user_bytes r.user 5, commands r.trace))
      = some (4, 4, [some 100, some 97, some 116, some 97, some 0], [0, 1, 2, 3]) := by
  decide

/-! ## C8: the maximum device count -/

/-- C8 refuted: after 32 successful attaches the registry holds 32 instances,
the configured maximum; one more attach returns 0 and the registry holds 33,
with the counter at 33 and the new instance on minor 32. -/
theorem C8_attach_past_maximum :
    (run (List.replicate 32 (Op.probe (probe_ok 256)))).attached.length = AT24_MAX_DEVICES ∧
    (run (List.replicate 32 (Op.probe (probe_ok 256)))).device_count = AT24_MAX_DEVICES ∧
    (at24_probe (probe_ok 256) (run (List.replicate 32 (Op.probe (probe_ok 256))))).1 = 0 ∧
    (at24_probe (probe_ok 256)
      (run (List.replicate 32 (Op.probe (probe_ok 256))))).2.device_count = 33 ∧
    (at24_probe (probe_ok 256)
      (run (List.replicate 32 (Op.probe (probe_ok 256))))).2.attached.length = 33 ∧
    (at24_probe (probe_ok 256)
      (run (List.replicate 32 (Op.probe (probe_ok 256))))).2.attached.head?
        = some ⟨256, 32⟩ ∧
    ¬ (at24_probe (probe_ok 256)
      (run (List.replicate 32 (Op.probe (probe_ok 256))))).2.attached.length
        ≤ AT24_MAX_DEVICES := by
  decide

/-- C8 as amended: `at24_probe` does not look at `AT24_MAX_DEVICES`. In any
driver state, an attach whose external steps all succeed returns 0, attaches
the instance on the minor equal to the old count, publishes its node and
raises the count by one. -/
theorem C8_attach_unbounded (env : ProbeEnv) (d : Driver) (size : Int)
    (h1 : env.devm_kzalloc = true) (h2 : env.size = some size)
    (h3 : env.i2c_check_functionality = true)
    (h4 : 0 ≤ env.device_create) (h5 : 0 ≤ env.cdev_add) :
    at24_probe env d
      = (0, ⟨d.device_count + 1,
             ⟨d.device_count, eeprom_name d.device_count⟩ :: d.nodes,
             ⟨size, d.device_count⟩ :: d.attached⟩) := by
  simp only [at24_probe, h1, h2, h3, if_neg (not_lt.mpr h4), if_neg (not_lt.mpr h5)]
  simp

/-- C8 as amended, at the state with 32 attached instances. -/
theorem C8_attach_unbounded_witness :
    at24_probe (probe_ok 256) (run (List.replicate 32 (Op.probe (probe_ok 256))))
      = (0, ⟨(run (List.replicate 32 (Op.probe (probe_ok 256)))).device_count + 1,
          ⟨(run (List.replicate 32 (Op.probe (probe_ok 256)))).device_count,
            eeprom_name (run (List.replicate 32 (Op.probe (probe_ok 256)))).device_count⟩
            :: (run (List.replicate 32 (Op.probe (probe_ok 256)))).nodes,
          ⟨256, (run (List.replicate 32 (Op.probe (probe_ok 256)))).device_count⟩
            :: (run (List.replicate 32 (Op.probe (probe_ok 256)))).attached⟩) :=
  C8_attach_unbounded (probe_ok 256) (run (List.replicate 32 (Op.probe (probe_ok 256))))
    256 rfl rfl rfl (by decide) (by decide)

/-! ## C10: attach and the declared capacity -/

/-- C10 refuted: an attach of a device declaring capacity 0 returns 0 and
leaves an attached instance with `size_in_bytes = 0`, with a minor consumed
and a node published. -/
theorem C10_capacity_zero_attached :
    (at24_probe (probe_ok 0) driver_init).1 = 0 ∧
    (at24_probe (probe_ok 0) driver_init).2.attached = [⟨0, 0⟩] ∧
    (at24_probe (probe_ok 0) driver_init).2.device_count = 1 ∧
    (at24_probe (probe_ok 0) driver_init).2.nodes.map Node.minor = [0] ∧
    ∃ inst ∈ (at24_probe (probe_ok 0) driver_init).2.attached, inst.size_in_bytes = 0 := by
  decide

/-- C10 as amended: when the declared capacity cannot be read, `at24_probe`
fails (with `-EINVAL`, or `-ENOMEM` if the allocation failed before) and the
driver state is what it was: no minor consumed, no node, no instance. The
value of a capacity that was read is not examined: the result code and the
driver state, apart from the size recorded in the new instance, are the same
for every value, 0 included. -/
theorem C10_attach_without_capacity (env : ProbeEnv) (d : Driver) (h : env.size = none) :
    (at24_probe env d).1 < 0 ∧ (at24_probe env d).2 = d ∧
    ∀ s : Int,
      (at24_probe { env with size := some s } d).1
        = (at24_probe { env with size := some 0 } d).1 ∧
      (at24_probe { env with size := some s } d).2.device_count
        = (at24_probe { env with size := some 0 } d).2.device_count ∧
      (at24_probe { env with size := some s } d).2.nodes
        = (at24_probe { env with size := some 0 } d).2.nodes ∧
      (at24_probe { env with size := some s } d).2.attached.map Instance.minor
        = (at24_probe { env with size := some 0 } d).2.attached.map Instance.minor := by
  refine ⟨?_, ?_, ?_⟩
  · simp only [at24_probe, h]
    split_ifs <;> simp [ENOMEM, EINVAL]
  · simp only [at24_probe, h]
    split_ifs <;> rfl
  · intro s
    simp only [at24_probe]
    split_ifs <;> simp

/-- C10 as amended, on a probe whose "size" property is missing, in the state
after one successful attach. -/
theorem C10_attach_without_capacity_witness :
    (at24_probe ⟨true, none, true, 0, 0⟩ (run [Op.probe (probe_ok 256)])).1 < 0 ∧
    (at24_probe ⟨true, none, true, 0, 0⟩ (run [Op.probe (probe_ok 256)])).2
      = run [Op.probe (probe_ok 256)] :=
  ⟨(C10_attach_without_capacity ⟨true, none, true, 0, 0⟩ (run [Op.probe (probe_ok 256)])
      rfl).1,
   (C10_attach_without_capacity ⟨true, none, true, 0, 0⟩ (run [Op.probe (probe_ok 256)])
      rfl).2.1⟩

/-! ## C3: seek -/

/-- C3: with a 32-bit capacity, a session offset in `[0, capacity]` and a
signed 64-bit argument, `at24_llseek` succeeds exactly when the mathematical
target of the origin lies in `[0, capacity]`; it then stores and returns the
target. In every other case, an unknown origin included, it returns `-EINVAL`
and leaves the offset alone. In particular `seek(0, end)` yields the capacity
and `seek(-1, absolute)` fails. -/
theorem C3_llseek (ldev : at24_device) (f_pos off whence : Int)
    (hsize : 0 ≤ ldev.size_in_bytes ∧ ldev.size_in_bytes < 4294967296)
    (hpos : 0 ≤ f_pos ∧ f_pos ≤ ldev.size_in_bytes)
    (hoff : -9223372036854775808 ≤ off ∧ off < 9223372036854775808) :
    (match seek_target ldev f_pos off whence with
      | some target =>
        if 0 ≤ target ∧ target ≤ ldev.size_in_bytes
        then at24_llseek ldev f_pos off whence = (target, target)
        else at24_llseek ldev f_pos off whence = (-EINVAL, f_pos)
      | none => at24_llseek ldev f_pos off whence = (-EINVAL, f_pos)) ∧
    (seek_target ldev f_pos off whence = none ↔
      whence ≠ SEEK_SET ∧ whence ≠ SEEK_CUR ∧ whence ≠ SEEK_END) ∧
    at24_llseek ldev f_pos 0 SEEK_END = (ldev.size_in_bytes, ldev.size_in_bytes) ∧
    at24_llseek ldev f_pos (-1) SEEK_SET = (-EINVAL, f_pos) := by
  obtain ⟨hs0, hs1⟩ := hsize
  obtain ⟨hp0, hp1⟩ := hpos
  obtain ⟨ho0, ho1⟩ := hoff
  refine ⟨?_, ?_, ?_, ?_⟩
  · unfold seek_target at24_llseek llseek_newpos SEEK_SET SEEK_CUR SEEK_END
    by_cases h0 : whence = 0
    · subst h0
      simp only [if_true]
      split_ifs <;> first | rfl | omega
    · by_cases h1 : whence = 1
      · subst h1
        have e : (f_pos + off < 9223372036854775808 ∧ s64 (f_pos + off) = f_pos + off)
            ∨ (9223372036854775808 ≤ f_pos + off ∧ s64 (f_pos + off) < 0) := by
          unfold s64; omega
        simp only [show ((1 : Int) = 0) = False by simp, if_true, if_false]
        split_ifs <;> first | rfl | omega | (congr 1 <;> omega)
      · by_cases h2 : whence = 2
        · subst h2
          have e : (ldev.size_in_bytes + off < 9223372036854775808
                ∧ s64 (ldev.size_in_bytes + off) = ldev.size_in_bytes + off)
              ∨ (9223372036854775808 ≤ ldev.size_in_bytes + off
                ∧ s64 (ldev.size_in_bytes + off) < 0) := by
            unfold s64; omega
          simp only [show ((2 : Int) = 0) = False by simp,
            show ((2 : Int) = 1) = False by simp, if_true, if_false]
          split_ifs <;> first | rfl | omega | (congr 1 <;> omega)
        · simp only [h0, h1, h2, if_false]
  · unfold seek_target
    split_ifs <;> simp_all
  · unfold at24_llseek llseek_newpos SEEK_END SEEK_SET SEEK_CUR s64
    simp only [show ((2 : Int) = 0) = False by simp, show ((2 : Int) = 1) = False by simp,
      if_false, if_true, add_zero]
    have : (ldev.size_in_bytes + 9223372036854775808) % 18446744073709551616
        - 9223372036854775808 = ldev.size_in_bytes := by omega
    rw [this]
    split_ifs <;> first | rfl | omega
  · unfold at24_llseek llseek_newpos SEEK_SET
    simp

/-- C3 at a concrete session: capacity 5, offset 3. -/
theorem C3_llseek_witness :
    (at24_llseek ⟨5⟩ 3 1 SEEK_CUR = (4, 4) ∧ at24_llseek ⟨5⟩ 3 3 SEEK_CUR = (-EINVAL, 3)) ∧
    at24_llseek ⟨5⟩ 3 0 SEEK_END = (5, 5) ∧ at24_llseek ⟨5⟩ 3 (-1) SEEK_SET = (-EINVAL, 3) := by
  have h := C3_llseek ⟨5⟩ 3 0 SEEK_END (by decide) (by decide) (by decide)
  exact ⟨by decide, h.2.2.1, h.2.2.2⟩


/-! ## C12: attach is all or nothing -/

theorem device_destroy_head (minor : Int) (name : String) (nodes : List Node) :
    device_destroy (⟨minor, name⟩ :: nodes) minor = nodes := by
  simp [device_destroy]

/-- The two ways `at24_probe` ends: with a negative code and the driver state
untouched, or with 0, the counter raised by one, the node `eeprom<minor>`
published and the instance attached, `minor` being the old counter. -/
theorem at24_probe_cases (env : ProbeEnv) (d : Driver) :
    ((at24_probe env d).1 < 0 ∧ (at24_probe env d).2 = d) ∨
    ((at24_probe env d).1 = 0 ∧ ∃ size, env.size = some size ∧
      (at24_probe env d).2 = ⟨d.device_count + 1,
        ⟨d.device_count, eeprom_name d.device_count⟩ :: d.nodes,
        ⟨size, d.device_count⟩ :: d.attached⟩) := by
  unfold at24_probe
  by_cases h1 : env.devm_kzalloc = false
  · left; simp [h1, ENOMEM]
  · rw [if_neg h1]
    cases hs : env.size with
    | none => left; simp [EINVAL]
    | some size =>
      simp only []
      by_cases h3 : env.i2c_check_functionality = false
      · left; simp [h3, ENODEV]
      · rw [if_neg h3]
        by_cases h4 : env.device_create < 0
        · left
          rw [if_pos h4]
          refine ⟨h4, ?_⟩
          cases d
          simp
        · rw [if_neg h4]
          by_cases h5 : env.cdev_add < 0
          · left
            rw [if_pos h5]
            refine ⟨h5, ?_⟩
            cases d
            simp [device_destroy_head]
          · right
            rw [if_neg h5]
            exact ⟨rfl, size, rfl, rfl⟩

/-- C12: whatever the external steps of an `at24_probe` do, the call returns
either a negative code or 0. With a negative code the device counter, and the
whole driver state with it, is what it was before the call. With 0 the counter
is one more than before and the node published is named `eeprom<minor>` with
`minor` the value of the counter before the call. -/
theorem C12_attach_all_or_nothing (env : ProbeEnv) (d : Driver) :
    ((at24_probe env d).1 < 0 ∨ (at24_probe env d).1 = 0) ∧
    ((at24_probe env d).1 ≠ 0 →
      (at24_probe env d).2.device_count = d.device_count ∧ (at24_probe env d).2 = d) ∧
    ((at24_probe env d).1 = 0 →
      (at24_probe env d).2.device_count = d.device_count + 1 ∧
      (at24_probe env d).2.nodes
        = ⟨d.device_count, "eeprom" ++ toString d.device_count⟩ :: d.nodes) := by
  rcases at24_probe_cases env d with ⟨h1, h2⟩ | ⟨h1, size, _, h2⟩
  · refine ⟨Or.inl h1, fun _ => ⟨by rw [h2], h2⟩, fun h => ?_⟩
    omega
  · refine ⟨Or.inr h1, fun h => absurd h1 h, fun _ => ?_⟩
    rw [h2]
    exact ⟨rfl, rfl⟩

/-- C12 evaluated in the state after two attaches: a probe whose `cdev_add`
fails with -16 returns -16 and leaves the state as it was; a probe that
succeeds raises the counter from 2 to 3 and publishes `eeprom2`. -/
theorem C12_evaluated :
    (at24_probe ⟨true, some 256, true, 0, -16⟩
      (run [Op.probe (probe_ok 256), Op.probe (probe_ok 256)]))
      = (-16, run [Op.probe (probe_ok 256), Op.probe (probe_ok 256)]) ∧
    (at24_probe ⟨true, some 256, true, -17, 0⟩
      (run [Op.probe (probe_ok 256), Op.probe (probe_ok 256)]))
      = (-17, run [Op.probe (probe_ok 256), Op.probe (probe_ok 256)]) ∧
    (run [Op.probe (probe_ok 256), Op.probe (probe_ok 256)]).device_count = 2 ∧
    (at24_probe (probe_ok 256)
      (run [Op.probe (probe_ok 256), Op.probe (probe_ok 256)])).2.device_count = 3 ∧
    (at24_probe (probe_ok 256)
      (run [Op.probe (probe_ok 256), Op.probe (probe_ok 256)])).2.nodes.head?
        = some ⟨2, "eeprom2"⟩ := by
  decide

/-! ## C16: the device counter counts the attached instances -/

theorem run_from_cons (d : Driver) (op : Op) (ops : List Op) :
    run_from d (op :: ops) = run_from (step d op) ops := rfl

/-- From a state whose counter equals the number of attached instances, a
sequence whose removes all target attached instances ends in such a state,
with the counter moved by the successful probes minus the removes. -/
theorem counter_from :
    ∀ (ops : List Op) (d : Driver), removes_attached d ops = true →
      d.device_count = d.attached.length →
      (run_from d ops).device_count
        = d.device_count + (successful_probes d ops : Int) - (removes ops : Int) ∧
      (run_from d ops).device_count = (run_from d ops).attached.length := by
  intro ops
  induction ops with
  | nil =>
    intro d _ hd
    simp [run_from, successful_probes, removes, hd]
  | cons op ops ih =>
    intro d hv hd
    cases op with
    | probe env =>
      simp only [removes_attached] at hv
      rw [run_from_cons]
      rcases at24_probe_cases env d with ⟨h1, h2⟩ | ⟨h1, size, _, h2⟩
      · have hstep : step d (Op.probe env) = d := h2
        have hne : ¬ (at24_probe env d).1 = 0 := by omega
        rw [hstep] at hv ⊢
        obtain ⟨a, b⟩ := ih d hv hd
        refine ⟨?_, b⟩
        simp only [successful_probes, removes, hne, if_false, hstep]
        rw [a]; push_cast; ring
      · have hstep : step d (Op.probe env) = ⟨d.device_count + 1,
            ⟨d.device_count, eeprom_name d.device_count⟩ :: d.nodes,
            ⟨size, d.device_count⟩ :: d.attached⟩ := h2
        obtain ⟨a, b⟩ := ih (step d (Op.probe env)) hv
          (by rw [hstep]; simp [hd])
        refine ⟨?_, b⟩
        simp only [successful_probes, removes, h1, if_true]
        rw [a, hstep]; push_cast; ring
    | remove inst =>
      simp only [removes_attached, Bool.and_eq_true, decide_eq_true_eq] at hv
      rw [run_from_cons]
      have hlen : (d.attached.erase inst).length = d.attached.length - 1 :=
        List.length_erase_of_mem hv.1
      have hpos : 0 < d.attached.length := List.length_pos_of_mem hv.1
      obtain ⟨a, b⟩ := ih (step d (Op.remove inst)) hv.2
        (by simp only [step, at24_remove, hlen]; omega)
      refine ⟨?_, b⟩
      simp only [successful_probes, removes]
      rw [a]
      simp only [step, at24_remove]
      push_cast; ring

/-- After a successful probe, the remove of the instance it attached gives
back the driver state from before the probe. -/
theorem probe_then_remove (env : ProbeEnv) (d : Driver) (size : Int)
    (hs : env.size = some size) (h : (at24_probe env d).1 = 0) :
    at24_remove ⟨size, d.device_count⟩ (at24_probe env d).2 = d := by
  rcases at24_probe_cases env d with ⟨h1, _⟩ | ⟨_, size1, hs1, h2⟩
  · omega
  · rw [hs] at hs1
    cases hs1
    rw [h2]
    cases d
    simp [at24_remove, device_destroy_head]

/-- C16: from module load, after any sequence of `at24_probe` calls (with any
outcomes of their external steps) and `at24_remove` calls on instances
attached at that moment, `device_count` equals the number of probes that
returned 0 minus the number of removes, equals the number of attached
instances and is not negative; and a further successful probe followed by the
remove of the instance it attached leaves the counter (and the whole driver
state) as it was before the probe. -/
theorem C16_counter_counts_attached (ops : List Op)
    (h : removes_attached driver_init ops = true) :
    (run ops).device_count
      = (successful_probes driver_init ops : Int) - (removes ops : Int) ∧
    (run ops).device_count = (run ops).attached.length ∧
    0 ≤ (run ops).device_count ∧
    ∀ (env : ProbeEnv) (size : Int), env.size = some size →
      (at24_probe env (run ops)).1 = 0 →
      (⟨size, (run ops).device_count⟩ : Instance) ∈ (at24_probe env (run ops)).2.attached ∧
      (at24_remove ⟨size, (run ops).device_count⟩
        (at24_probe env (run ops)).2).device_count = (run ops).device_count ∧
      at24_remove ⟨size, (run ops).device_count⟩ (at24_probe env (run ops)).2 = run ops := by
  obtain ⟨a, b⟩ := counter_from ops driver_init h rfl
  have hr : run ops = run_from driver_init ops := rfl
  rw [hr]
  refine ⟨by rw [a]; simp [driver_init], b, by rw [b]; omega, ?_⟩
  intro env size hs h0
  have hrem := probe_then_remove env (run_from driver_init ops) size hs h0
  refine ⟨?_, by rw [hrem], hrem⟩
  rcases at24_probe_cases env (run_from driver_init ops) with ⟨h1, _⟩ | ⟨_, size1, hs1, h2⟩
  · omega
  · rw [hs] at hs1
    cases hs1
    rw [h2]
    simp

/-- C16 on a sequence with a probe that fails at `cdev_add`, three that
succeed and one remove. -/
theorem C16_counter_counts_attached_witness :
    (run [Op.probe (probe_ok 256), Op.probe ⟨true, some 256, true, 0, -16⟩,
        Op.probe (probe_ok 128), Op.remove ⟨256, 0⟩, Op.probe (probe_ok 64)]).device_count
      = (successful_probes driver_init
          [Op.probe (probe_ok 256), Op.probe ⟨true, some 256, true, 0, -16⟩,
            Op.probe (probe_ok 128), Op.remove ⟨256, 0⟩, Op.probe (probe_ok 64)] : Int)
        - (removes [Op.probe (probe_ok 256), Op.probe ⟨true, some 256, true, 0, -16⟩,
            Op.probe (probe_ok 128), Op.remove ⟨256, 0⟩, Op.probe (probe_ok 64)] : Int) ∧
    (run [Op.probe (probe_ok 256), Op.probe ⟨true, some 256, true, 0, -16⟩,
        Op.probe (probe_ok 128), Op.remove ⟨256, 0⟩, Op.probe (probe_ok 64)]).device_count
      = (run [Op.probe (probe_ok 256), Op.probe ⟨true, some 256, true, 0, -16⟩,
        Op.probe (probe_ok 128), Op.remove ⟨256, 0⟩,
        Op.probe (probe_ok 64)]).attached.length ∧
    0 ≤ (run [Op.probe (probe_ok 256), Op.probe ⟨true, some 256, true, 0, -16⟩,
        Op.probe (probe_ok 128), Op.remove ⟨256, 0⟩,
        Op.probe (probe_ok 64)]).device_count :=
  ⟨(C16_counter_counts_attached _ (by decide)).1,
   (C16_counter_counts_attached
      [Op.probe (probe_ok 256), Op.probe ⟨true, some 256, true, 0, -16⟩,
        Op.probe (probe_ok 128), Op.remove ⟨256, 0⟩, Op.probe (probe_ok 64)]
      (by decide)).2.1,
   (C16_counter_counts_attached
      [Op.probe (probe_ok 256), Op.probe ⟨true, some 256, true, 0, -16⟩,
        Op.probe (probe_ok 128), Op.remove ⟨256, 0⟩, Op.probe (probe_ok 64)]
      (by decide)).2.2.1⟩

/-- The sequence of the witness of C16 evaluated: three probes succeed, one
is removed, the counter is 2 with two instances attached. -/
theorem C16_evaluated :
    successful_probes driver_init
      [Op.probe (probe_ok 256), Op.probe ⟨true, some 256, true, 0, -16⟩,
        Op.probe (probe_ok 128), Op.remove ⟨256, 0⟩, Op.probe (probe_ok 64)] = 3 ∧
    removes [Op.probe (probe_ok 256), Op.probe ⟨true, some 256, true, 0, -16⟩,
        Op.probe (probe_ok 128), Op.remove ⟨256, 0⟩, Op.probe (probe_ok 64)] = 1 ∧
    (run [Op.probe (probe_ok 256), Op.probe ⟨true, some 256, true, 0, -16⟩,
        Op.probe (probe_ok 128), Op.remove ⟨256, 0⟩, Op.probe (probe_ok 64)]).device_count
      = 2 ∧
    (run [Op.probe (probe_ok 256), Op.probe ⟨true, some 256, true, 0, -16⟩,
        Op.probe (probe_ok 128), Op.remove ⟨256, 0⟩, Op.probe (probe_ok 64)]).attached
      = [⟨64, 1⟩, ⟨128, 1⟩] := by
  decide

/-! ## C13: the caller's buffer after a failed read -/

theorem stored_outside :
    ∀ (rs : List Int) (m : UserMem) (i j : Int), ¬ (i ≤ j ∧ j < i + rs.length) →
      stored m i rs j = m j := by
  intro rs
  induction rs with
  | nil => intro m i j _; rfl
  | cons r rs ih =>
    intro m i j h
    simp only [stored]
    have hne : ¬ j = i := by simp only [List.length_cons] at h; push_cast at h; omega
    rw [ih _ (i + 1) j (by simp only [List.length_cons] at h; push_cast at h; omega)]
    simp [hne]

theorem stored_inside :
    ∀ (rs : List Int) (m : UserMem) (i : Int) (t : Nat) (b : Int), rs[t]? = some b →
      stored m i rs (i + t) = some (u8 b) := by
  intro rs
  induction rs with
  | nil => intro m i t b h; simp at h
  | cons r rs ih =>
    intro m i t b h
    simp only [stored]
    cases t with
    | zero =>
      simp only [List.getElem?_cons_zero, Option.some.injEq] at h
      rw [stored_outside rs _ (i + 1) _ (by push_cast; omega)]
      simp [h]
    | succ t =>
      simp only [List.getElem?_cons_succ] at h
      have := ih (fun j => if j = i then some (u8 r) else m j) (i + 1) t b h
      rw [show i + ((t + 1 : Nat) : Int) = i + 1 + (t : Int) by push_cast; ring]
      exact this

/-- C13 refuted: a 5-byte read from offset 1 of a 10-byte device whose third
transport call fails returns -5, and the caller's buffer, which held
1, 2, 3, 4, 5, now starts with the two bytes read before the failure. -/
theorem C13_partial_bytes_delivered :
    (at24_read (flaky 2 (-5)) ⟨10⟩ 0 (user_of [1, 2, 3, 4, 5]) 5 1).map
        (fun r => (r.ret, results r.trace, user_bytes r.user 5))
      = some (-5, [0, 0, -5], [some 0, some 0, some 3, some 4, some 5]) ∧
    user_bytes (user_of [1, 2, 3, 4, 5]) 5 = [some 1, some 2, some 3, some 4, some 5] ∧
    (at24_read (flaky 2 (-5)) ⟨10⟩ 0 (user_of [1, 2, 3, 4, 5]) 5 1).map
        (fun r => user_bytes r.user 5)
      ≠ some (user_bytes (user_of [1, 2, 3, 4, 5]) 5) := by
  decide

/-- C13 as amended: inside the device (capacity a `u32`,
`0 <= offset < capacity - 1`, length a non-negative `ssize_t`), if transport
call number `k` of an `at24_read` failed, then the call returned the error code
and left the offset alone, but the caller's buffer is not what it was: its
positions `0 .. k - 1` hold the `k` bytes read before the failure, and only
the positions outside are unchanged. -/
theorem C13_failed_read_buffer {σ : Type} (client : i2c_client σ) (ldev : at24_device)
    (dev : σ) (user : UserMem) (length offset : Int)
    (hsize : ldev.size_in_bytes < 4294967296)
    (hoff : 0 ≤ offset ∧ offset < ldev.size_in_bytes - 1)
    (hlen : 0 ≤ length ∧ length < 9223372036854775808) :
    ∃ r, at24_read client ldev dev user length offset = some r ∧
      ∀ (k : Nat) (c : Int), (results r.trace)[k]? = some c → c < 0 →
        r.ret = c ∧ r.pos = offset ∧
        (∀ (t : Nat) (b : Int), t < k → (results r.trace)[t]? = some b →
          r.user t = some (u8 b)) ∧
        (∀ j : Int, j < 0 ∨ (k : Int) ≤ j → r.user j = user j) := by
  obtain ⟨r, o, heq, ⟨rs, hrs, huser, hcases⟩, hfin⟩ :=
    at24_read_in_range client ldev dev user length offset hsize hoff hlen
  refine ⟨r, heq, fun k c hk hc => ?_⟩
  rcases hcases with ⟨_, htr, _⟩ | ⟨c1, ho, _, _, htr⟩ | ⟨c1, _, hc1, _, _, htr⟩
  · exfalso
    rw [htr, results_read_events] at hk
    have := hrs c (List.getElem?_mem hk)
    omega
  · have hres : results r.trace = rs ++ [c1] := by
      rw [htr, results_append, results_read_events]; simp [results, Event.result]
    rw [hres] at hk ⊢
    obtain ⟨hkl, hcc⟩ := neg_at_last rs c1 k c hrs hk hc
    rcases hfin with ⟨h5, _, _⟩ | ⟨c3, h5, h6, h7⟩
    · rw [ho] at h5; cases h5
    · rw [ho] at h5; cases h5
      refine ⟨by rw [h6, hcc], h7, ?_, ?_⟩
      · intro t b ht hb
        rw [List.getElem?_append_left (by omega)] at hb
        have := stored_inside rs user 0 t b hb
        rw [zero_add] at this
        rw [huser]; exact this
      · intro j hj
        rw [huser]
        exact stored_outside rs user 0 j (by omega)
  · exfalso
    have hres : results r.trace = rs ++ [c1] := by
      rw [htr, results_append, results_read_events]; simp [results, Event.result]
    rw [hres] at hk
    have := List.getElem?_mem hk
    rcases List.mem_append.mp this with h | h
    · have := hrs c h; omega
    · simp at h; omega

/-- C13 as amended, on the read of the counterexample. -/
theorem C13_failed_read_buffer_witness :
    ∃ r, at24_read (flaky 2 (-5)) ⟨10⟩ 0 (user_of [1, 2, 3, 4, 5]) 5 1 = some r ∧
      ∀ (k : Nat) (c : Int), (results r.trace)[k]? = some c → c < 0 →
        r.ret = c ∧ r.pos = 1 ∧
        (∀ (t : Nat) (b : Int), t < k → (results r.trace)[t]? = some b →
          r.user t = some (u8 b)) ∧
        (∀ j : Int, j < 0 ∨ (k : Int) ≤ j → r.user j = user_of [1, 2, 3, 4, 5] j) :=
  C13_failed_read_buffer (flaky 2 (-5)) ⟨10⟩ 0 (user_of [1, 2, 3, 4, 5]) 5 1
    (by decide) (by decide) (by decide)

/-! ## The loops for every input: termination and the shape of the trace -/

theorem read_events_congr (offset : Int) :
    ∀ (rs : List Int) (a b : Int), u8 a = u8 b →
      read_events offset a rs = read_events offset b rs := by
  intro rs
  induction rs with
  | nil => intro a b _; rfl
  | cons r rs ih =>
    intro a b h
    simp only [read_events]
    rw [ih (a + 1) (b + 1) (by unfold u8 at h ⊢; omega)]
    rw [show u8 (offset + a) = u8 (offset + b) by unfold u8 at h ⊢; omega]

theorem write_events_congr (offset : Int) :
    ∀ (ps : List (Int × Int)) (a b : Int), u8 a = u8 b →
      write_events offset a ps = write_events offset b ps := by
  intro ps
  induction ps with
  | nil => intro a b _; rfl
  | cons p ps ih =>
    intro a b h
    simp only [write_events]
    rw [ih (a + 1) (b + 1) (by unfold u8 at h ⊢; omega)]
    rw [show u8 (offset + a) = u8 (offset + b) by unfold u8 at h ⊢; omega]

theorem u8_s32_succ (i : Int) : u8 (s32 (i + 1)) = u8 (i + 1) := u8_s32 (i + 1)

theorem read_loop_trace {σ : Type} (client : i2c_client σ) (offset length : Int) :
    ∀ (fuel : Nat) (i : Int) (st : Io σ) (res : Option Int × Io σ),
      read_loop client offset length fuel i st = some res →
      ∃ evs, res.2.trace = st.trace ++ evs ∧ ReadTrace offset i res.1 evs := by
  intro fuel
  induction fuel with
  | zero => intro i st res h; simp [read_loop] at h
  | succ fuel ih =>
    intro i st res h
    simp only [read_loop, command_eq] at h
    split at h
    · split at h
      · next hneg =>
        cases h
        exact ⟨_, rfl, [], by simp, Or.inr ⟨_, rfl, hneg, by simp [read_events]⟩⟩
      · next hpos =>
        split at h
        · cases h
          exact ⟨_, rfl, [(client.i2c_smbus_read_byte_data st.dev (u8 (offset + i))).1],
            by simpa using not_lt.mp hpos,
            Or.inl ⟨Or.inr rfl, by simp [read_events]⟩⟩
        · next user hput =>
          obtain ⟨evs, htr, rs, hrs, hcases⟩ := ih _ _ _ h
          have hcong := read_events_congr offset rs _ _ (u8_s32_succ i)
          have hlast : u8 (offset + s32 (i + 1) + (rs.length : Int))
              = u8 (offset + i + ((rs.length + 1 : Nat) : Int)) := by
            have := u8_s32_succ i
            unfold u8 at this ⊢
            push_cast
            omega
          refine ⟨Event.read (u8 (offset + i))
            (client.i2c_smbus_read_byte_data st.dev (u8 (offset + i))).1 :: evs,
            by rw [htr]; simp,
            (client.i2c_smbus_read_byte_data st.dev (u8 (offset + i))).1 :: rs, ?_, ?_⟩
          · intro r hr
            rcases List.mem_cons.mp hr with e | e
            · rw [e]; exact not_lt.mp hpos
            · exact hrs r e
          · rcases hcases with ⟨h1, h2⟩ | ⟨c, h1, h2, h3⟩
            · exact Or.inl ⟨h1, by rw [h2, hcong]; simp [read_events]⟩
            · refine Or.inr ⟨c, h1, h2, ?_⟩
              rw [h3, hcong, hlast]
              simp [read_events]
    · cases h
      exact ⟨[], by simp, [], by simp, Or.inl ⟨Or.inl rfl, rfl⟩⟩

theorem write_loop_trace {σ : Type} (client : i2c_client σ) (offset length : Int) :
    ∀ (fuel : Nat) (i : Int) (st : Io σ) (res : Option Int × Io σ),
      write_loop client offset length fuel i st = some res →
      ∃ evs, res.2.trace = st.trace ++ evs ∧ WriteTrace offset i res.1 evs := by
  intro fuel
  induction fuel with
  | zero => intro i st res h; simp [write_loop] at h
  | succ fuel ih =>
    intro i st res h
    simp only [write_loop, command_eq] at h
    split at h
    · split at h
      · cases h
        exact ⟨[], by simp, [], by simp, Or.inl ⟨Or.inr rfl, rfl⟩⟩
      · next v hget =>
        split at h
        · next hneg =>
          cases h
          exact ⟨_, rfl, [], by simp, Or.inr ⟨v, _, rfl, hneg, by simp [write_events]⟩⟩
        · next hpos =>
          obtain ⟨evs, htr, ps, hps, hcases⟩ := ih _ _ _ h
          have hcong := write_events_congr offset ps _ _ (u8_s32_succ i)
          have hlast : u8 (offset + s32 (i + 1) + (ps.length : Int))
              = u8 (offset + i + ((ps.length + 1 : Nat) : Int)) := by
            have := u8_s32_succ i
            unfold u8 at this ⊢
            push_cast
            omega
          refine ⟨Event.write (u8 (offset + i)) v
            (client.i2c_smbus_write_byte_data st.dev (u8 (offset + i)) v).1
              :: Event.delay AT24_I2C_WRITE_DELAY :: evs,
            by rw [htr]; simp,
            (v, (client.i2c_smbus_write_byte_data st.dev (u8 (offset + i)) v).1) :: ps,
            ?_, ?_⟩
          · intro p hp
            rcases List.mem_cons.mp hp with e | e
            · rw [e]; exact not_lt.mp hpos
            · exact hps p e
          · rcases hcases with ⟨h1, h2⟩ | ⟨w, c, h1, h2, h3⟩
            · exact Or.inl ⟨h1, by rw [h2, hcong]; simp [write_events]⟩
            · refine Or.inr ⟨w, c, h1, h2, ?_⟩
              rw [h3, hcong, hlast]
              simp [write_events]
    · cases h
      exact ⟨[], by simp, [], by simp, Or.inl ⟨Or.inl rfl, rfl⟩⟩

theorem counter_step (i length : Int) (h0 : -2147483648 ≤ i) (h1 : i < 2147483648)
    (hl : length < 18446744073709551616) (hc : u64 i < length) :
    -2147483648 ≤ s32 (i + 1) ∧ s32 (i + 1) < 2147483648 ∧ u32 (s32 (i + 1)) = u32 i + 1 := by
  unfold u64 at hc
  unfold s32 u32
  omega

/-- The loop of `at24_read` ends within `LOOP_FUEL` iterations: the counter
takes each `int` value at most once and the loop condition fails at -1 at the
latest. -/
theorem read_loop_total {σ : Type} (client : i2c_client σ) (offset length : Int)
    (hl : length < 18446744073709551616) :
    ∀ (fuel : Nat) (i : Int) (st : Io σ), -2147483648 ≤ i → i < 2147483648 →
      4294967296 ≤ (fuel : Int) + u32 i →
      ∃ res, read_loop client offset length fuel i st = some res := by
  intro fuel
  induction fuel with
  | zero =>
    intro i st h0 h1 hf
    unfold u32 at hf
    omega
  | succ fuel ih =>
    intro i st h0 h1 hf
    simp only [read_loop]
    split
    · next hc =>
      obtain ⟨a, b, c⟩ := counter_step i length h0 h1 hl hc
      split
      · exact ⟨_, rfl⟩
      · split
        · exact ⟨_, rfl⟩
        · exact ih _ _ a b (by rw [c]; push_cast at hf; omega)
    · exact ⟨_, rfl⟩

/-- The loop of `at24_write` ends within `LOOP_FUEL` iterations. -/
theorem write_loop_total {σ : Type} (client : i2c_client σ) (offset length : Int)
    (hl : length < 18446744073709551616) :
    ∀ (fuel : Nat) (i : Int) (st : Io σ), -2147483648 ≤ i → i < 2147483648 →
      4294967296 ≤ (fuel : Int) + u32 i →
      ∃ res, write_loop client offset length fuel i st = some res := by
  intro fuel
  induction fuel with
  | zero =>
    intro i st h0 h1 hf
    unfold u32 at hf
    omega
  | succ fuel ih =>
    intro i st h0 h1 hf
    simp only [write_loop]
    split
    · next hc =>
      obtain ⟨a, b, c⟩ := counter_step i length h0 h1 hl hc
      split
      · exact ⟨_, rfl⟩
      · split
        · exact ⟨_, rfl⟩
        · exact ih _ _ a b (by rw [c]; push_cast at hf; omega)
    · exact ⟨_, rfl⟩

theorem clamp_length_lt (ldev : at24_device) (length offset : Int) :
    0 ≤ clamp_length ldev length offset ∧
    clamp_length ldev length offset < 18446744073709551616 := by
  unfold clamp_length u64
  omega

/-- Every `at24_read` returns. Its trace is a run of successful reads of the
registers `(offset + i) mod 256`, `i = 0, 1, ...`, possibly ended by a failed
one. Either the guard returned 0 at once, or the loop ran and the call ended
with an early return (code `c`, offset unchanged) or with the clamped length
added to the offset. -/
theorem at24_read_general {σ : Type} (client : i2c_client σ) (ldev : at24_device)
    (dev : σ) (user : UserMem) (length offset : Int) :
    ∃ (r : Outcome σ) (o : Option Int),
      at24_read client ldev dev user length offset = some r ∧
      ReadTrace offset 0 o r.trace ∧
      ((offset ≥ u32 (ldev.size_in_bytes - 1) ∧ o = none ∧ r = ⟨0, offset, dev, user, []⟩) ∨
       (¬ offset ≥ u32 (ldev.size_in_bytes - 1) ∧
        ((o = none ∧ r.ret = s64 (clamp_length ldev length offset)
            ∧ r.pos = s64 (offset + clamp_length ldev length offset))
          ∨ (∃ c, o = some c ∧ r.ret = c ∧ r.pos = offset)))) := by
  by_cases hg : offset ≥ u32 (ldev.size_in_bytes - 1)
  · refine ⟨⟨0, offset, dev, user, []⟩, none, by simp only [at24_read, hg, if_true],
      ⟨[], by simp, Or.inl ⟨Or.inl rfl, rfl⟩⟩, Or.inl ⟨hg, rfl, rfl⟩⟩
  · obtain ⟨res, hres⟩ := read_loop_total client offset (clamp_length ldev length offset)
      (clamp_length_lt ldev length offset).2 LOOP_FUEL 0 ⟨dev, user, []⟩
      (by decide) (by decide) (by decide)
    obtain ⟨evs, htr, hshape⟩ := read_loop_trace client offset _ _ _ _ _ hres
    simp only [List.nil_append] at htr
    obtain ⟨o, st1⟩ := res
    have htr2 : st1.trace = evs := htr
    rw [← htr2] at hshape
    have heq : at24_read client ldev dev user length offset
        = some (finish offset (clamp_length ldev length offset) (o, st1)) := by
      simp only [at24_read, hg, if_false, hres, Option.map_some']
    cases o with
    | none =>
      exact ⟨_, none, heq, by simpa [finish] using hshape,
        Or.inr ⟨hg, Or.inl ⟨rfl, rfl, rfl⟩⟩⟩
    | some c =>
      exact ⟨_, some c, heq, by simpa [finish] using hshape,
        Or.inr ⟨hg, Or.inr ⟨c, rfl, rfl, rfl⟩⟩⟩

/-- Every `at24_write` returns; as `at24_read_general`, with a delay after
each successful write. -/
theorem at24_write_general {σ : Type} (client : i2c_client σ) (ldev : at24_device)
    (dev : σ) (user : UserMem) (length offset : Int) :
    ∃ (r : Outcome σ) (o : Option Int),
      at24_write client ldev dev user length offset = some r ∧
      WriteTrace offset 0 o r.trace ∧
      ((offset ≥ u32 (ldev.size_in_bytes - 1) ∧ o = none ∧ r = ⟨0, offset, dev, user, []⟩) ∨
       (¬ offset ≥ u32 (ldev.size_in_bytes - 1) ∧
        ((o = none ∧ r.ret = s64 (clamp_length ldev length offset)
            ∧ r.pos = s64 (offset + clamp_length ldev length offset))
          ∨ (∃ c, o = some c ∧ r.ret = c ∧ r.pos = offset)))) := by
  by_cases hg : offset ≥ u32 (ldev.size_in_bytes - 1)
  · refine ⟨⟨0, offset, dev, user, []⟩, none, by simp only [at24_write, hg, if_true],
      ⟨[], by simp, Or.inl ⟨Or.inl rfl, rfl⟩⟩, Or.inl ⟨hg, rfl, rfl⟩⟩
  · obtain ⟨res, hres⟩ := write_loop_total client offset (clamp_length ldev length offset)
      (clamp_length_lt ldev length offset).2 LOOP_FUEL 0 ⟨dev, user, []⟩
      (by decide) (by decide) (by decide)
    obtain ⟨evs, htr, hshape⟩ := write_loop_trace client offset _ _ _ _ _ hres
    simp only [List.nil_append] at htr
    obtain ⟨o, st1⟩ := res
    have htr2 : st1.trace = evs := htr
    rw [← htr2] at hshape
    have heq : at24_write client ldev dev user length offset
        = some (finish offset (clamp_length ldev length offset) (o, st1)) := by
      simp only [at24_write, hg, if_false, hres, Option.map_some']
    cases o with
    | none =>
      exact ⟨_, none, heq, by simpa [finish] using hshape,
        Or.inr ⟨hg, Or.inl ⟨rfl, rfl, rfl⟩⟩⟩
    | some c =>
      exact ⟨_, some c, heq, by simpa [finish] using hshape,
        Or.inr ⟨hg, Or.inr ⟨c, rfl, rfl, rfl⟩⟩⟩

/-! ## C11: the settling delay -/

theorem settled_write_events (offset : Int) :
    ∀ (ps : List (Int × Int)) (i : Int) (tail : List Event), (∀ p ∈ ps, 0 ≤ p.2) →
      settled tail = true → settled (write_events offset i ps ++ tail) = true := by
  intro ps
  induction ps with
  | nil => intro i tail _ h; simpa [write_events] using h
  | cons p ps ih =>
    intro i tail hps h
    have h0 := hps p (List.mem_cons_self _ _)
    have := ih (i + 1) tail (fun q hq => hps q (List.mem_cons_of_mem _ hq)) h
    simp [write_events, settled, h0, this]

/-- In a run of successful writes with their delays, possibly ended by one
failed write: a write at position `k` is followed at `k + 1` by the delay if
it succeeded and by nothing if it failed, and a delay at position `k` is the
fixed one and follows a successful write at `k - 1`. -/
theorem write_trace_adjacent (offset : Int) :
    ∀ (ps : List (Int × Int)) (i : Int) (tail : List Event), (∀ p ∈ ps, 0 ≤ p.2) →
      (tail = [] ∨ ∃ a v c, c < 0 ∧ tail = [Event.write a v c]) →
      ∀ k : Nat,
        (∀ c v res, (write_events offset i ps ++ tail)[k]? = some (Event.write c v res) →
          (0 ≤ res ∧ (write_events offset i ps ++ tail)[k + 1]?
              = some (Event.delay AT24_I2C_WRITE_DELAY)) ∨
          (res < 0 ∧ (write_events offset i ps ++ tail)[k + 1]? = none)) ∧
        (∀ ms, (write_events offset i ps ++ tail)[k]? = some (Event.delay ms) →
          ms = AT24_I2C_WRITE_DELAY ∧ ∃ j c v res, k = j + 1 ∧
            (write_events offset i ps ++ tail)[j]? = some (Event.write c v res) ∧ 0 ≤ res) := by
  intro ps
  induction ps with
  | nil =>
    intro i tail _ htail k
    simp only [write_events, List.nil_append]
    rcases htail with rfl | ⟨a, v, c, hc, rfl⟩
    · simp
    · cases k with
      | zero =>
        refine ⟨fun c1 v1 res h => ?_, fun ms h => ?_⟩
        · simp only [List.getElem?_cons_zero, Option.some.injEq, Event.write.injEq] at h
          right
          exact ⟨by omega, by simp⟩
        · simp at h
      | succ k => simp
  | cons p ps ih =>
    intro i tail hps htail k
    have h0 := hps p (List.mem_cons_self _ _)
    have ih1 := ih (i + 1) tail (fun q hq => hps q (List.mem_cons_of_mem _ hq)) htail
    simp only [write_events, List.cons_append]
    cases k with
    | zero =>
      refine ⟨fun c1 v1 res h => ?_, fun ms h => ?_⟩
      · simp only [List.getElem?_cons_zero, Option.some.injEq, Event.write.injEq] at h
        left
        exact ⟨by omega, by simp⟩
      · simp at h
    | succ k =>
      cases k with
      | zero =>
        refine ⟨fun c1 v1 res h => ?_, fun ms h => ?_⟩
        · simp at h
        · simp only [zero_add, List.getElem?_cons_succ, List.getElem?_cons_zero,
            Option.some.injEq, Event.delay.injEq] at h
          exact ⟨h.symm, 0, u8 (offset + i), p.1, p.2, rfl, by simp, h0⟩
      | succ k =>
        obtain ⟨a, b⟩ := ih1 k
        refine ⟨fun c1 v1 res h => ?_, fun ms h => ?_⟩
        · simp only [List.getElem?_cons_succ] at h ⊢
          exact a c1 v1 res h
        · simp only [List.getElem?_cons_succ] at h
          obtain ⟨e, j, c1, v1, res, hj, hw, hr⟩ := b ms h
          exact ⟨e, j + 2, c1, v1, res, by omega, by simpa using hw, hr⟩

/-- C11: every `at24_write` returns, and in its trace of transport writes and
delays each write that succeeded is followed at once by one delay of
`AT24_I2C_WRITE_DELAY = 8`, a write that failed ends the trace, and every
delay is that fixed delay directly after a successful write: no two writes
without a delay between them. A call that returns a count `n` (with
`0 <= n <= 2^31`, as for every requested length up to `INT_MAX`; the loop
counter is an `int`) has the trace (write, delay 8) repeated `n` times, all
writes successful. -/
theorem C11_settling_delay {σ : Type} (client : i2c_client σ) (ldev : at24_device)
    (dev : σ) (user : UserMem) (length offset : Int) :
    AT24_I2C_WRITE_DELAY = 8 ∧
    ∃ r, at24_write client ldev dev user length offset = some r ∧
      settled r.trace = true ∧
      (∀ (k : Nat) (c v res : Int), r.trace[k]? = some (Event.write c v res) →
        (0 ≤ res ∧ r.trace[k + 1]? = some (Event.delay AT24_I2C_WRITE_DELAY)) ∨
        (res < 0 ∧ r.trace[k + 1]? = none)) ∧
      (∀ (k : Nat) (ms : Int), r.trace[k]? = some (Event.delay ms) →
        ms = AT24_I2C_WRITE_DELAY ∧ ∃ j c v res, k = j + 1 ∧
          r.trace[j]? = some (Event.write c v res) ∧ 0 ≤ res) ∧
      (0 ≤ r.ret → r.ret ≤ 2147483648 →
        ∃ ps : List (Int × Int), ps.length = r.ret.toNat ∧ (∀ p ∈ ps, 0 ≤ p.2) ∧
          r.trace = write_events offset 0 ps) := by
  refine ⟨rfl, ?_⟩
  obtain ⟨r, o, heq, ⟨ps, hps, htrace⟩, hcases⟩ :=
    at24_write_general client ldev dev user length offset
  have hdecomp : ∃ tail, r.trace = write_events offset 0 ps ++ tail ∧
      (tail = [] ∨ ∃ a v c, c < 0 ∧ tail = [Event.write a v c]) := by
    rcases htrace with ⟨_, h⟩ | ⟨v, c, _, hc, h⟩
    · exact ⟨[], by simpa using h, Or.inl rfl⟩
    · exact ⟨_, h, Or.inr ⟨_, v, c, hc, rfl⟩⟩
  obtain ⟨tail, htr, htail⟩ := hdecomp
  have hset : settled tail = true := by
    rcases htail with rfl | ⟨a, v, c, hc, rfl⟩
    · rfl
    · simp [settled, hc]
  refine ⟨r, heq, ?_, ?_, ?_, ?_⟩
  · rw [htr]; exact settled_write_events offset ps 0 tail hps hset
  · intro k c v res h
    rw [htr] at h ⊢
    exact (write_trace_adjacent offset ps 0 tail hps htail k).1 c v res h
  · intro k ms h
    rw [htr] at h ⊢
    exact (write_trace_adjacent offset ps 0 tail hps htail k).2 ms h
  · intro h0 h1
    rcases hcases with ⟨_, _, hr⟩ | ⟨hg, hrun⟩
    · exact ⟨[], by rw [hr]; rfl, by simp, by rw [hr]; rfl⟩
    · rcases hrun with ⟨_, hret, _⟩ | ⟨c, ho, hret, _⟩
      · obtain ⟨hc0, hc1⟩ := clamp_length_lt ldev length offset
        have hcl : clamp_length ldev length offset = r.ret := by
          rw [hret] at h0 h1 ⊢
          unfold s64 at h0 h1 ⊢
          omega
        have heq2 := at24_write_eq client ldev dev user length offset hg (by omega)
        rw [heq] at heq2
        have hr := Option.some.inj heq2
        rw [hcl, iters_small r.ret h1] at hr
        obtain ⟨evs, htr2, ps2, hps2, _, hsh⟩ := write_iter_shape client offset
          r.ret.toNat 0 ⟨dev, user, []⟩
        rcases hres : write_iter client offset r.ret.toNat 0 ⟨dev, user, []⟩ with ⟨o2, st2⟩
        rw [hres] at hr htr2 hsh
        simp only [List.nil_append] at htr2
        have htr3 : st2.trace = evs := htr2
        cases o2 with
        | none =>
          rcases hsh with ⟨_, he, hl⟩ | ⟨v, c, hcon, _⟩ | ⟨hcon, _⟩
          · exact ⟨ps2, hl, hps2, by rw [hr]; simp only [finish]; rw [htr3, he]⟩
          · cases hcon
          · cases hcon
        | some c2 =>
          exfalso
          have hc2 : r.ret = c2 := by rw [hr]; rfl
          rcases hsh with ⟨hcon, _⟩ | ⟨v, c, hcon, hneg, _⟩ | ⟨hcon, _⟩
          · cases hcon
          · cases hcon; omega
          · cases hcon; rw [hc2] at h0; simp [EFAULT] at h0
      · exfalso
        rcases htrace with ⟨ho2, _⟩ | ⟨v, c2, ho2, hneg, _⟩
        · rcases ho2 with ho2 | ho2
          · rw [ho] at ho2; cases ho2
          · rw [ho] at ho2; cases ho2
            rw [hret] at h0; simp [EFAULT] at h0
        · rw [ho] at ho2; cases ho2
          omega

/-- C11 evaluated: a 3-byte write from offset 1 of a 10-byte device gives
write, delay 8, three times; when the second write fails there is one pair and
then the failed write, without a delay after it. -/
theorem C11_evaluated :
    (at24_write eeprom ⟨10⟩ (fun _ => 0) (user_of [5, 6, 7]) 3 1).map
        (fun r => (r.ret, r.trace))
      = some (3, [Event.write 1 5 0, Event.delay 8, Event.write 2 6 0, Event.delay 8,
          Event.write 3 7 0, Event.delay 8]) ∧
    (at24_write (flaky 1 (-5)) ⟨10⟩ 0 (user_of [5, 6, 7]) 3 1).map
        (fun r => (r.ret, r.trace, settled r.trace))
      = some (-5, [Event.write 1 5 0, Event.delay 8, Event.write 2 6 (-5)], true) := by
  decide

/-! ## C14: the register address is the offset modulo 256 -/

theorem commands_of_read_trace (offset : Int) (o : Option Int) (evs : List Event)
    (h : ReadTrace offset 0 o evs) : ∃ n, commands evs = addresses offset 0 n := by
  obtain ⟨rs, _, hcases⟩ := h
  rcases hcases with ⟨_, he⟩ | ⟨c, _, _, he⟩
  · exact ⟨rs.length, by rw [he, commands_read_events]⟩
  · refine ⟨rs.length + 1, ?_⟩
    rw [he, commands_append, commands_read_events, ← addresses_append_one]
    simp [commands, Event.command]

theorem commands_of_write_trace (offset : Int) (o : Option Int) (evs : List Event)
    (h : WriteTrace offset 0 o evs) : ∃ n, commands evs = addresses offset 0 n := by
  obtain ⟨ps, _, hcases⟩ := h
  rcases hcases with ⟨_, he⟩ | ⟨v, c, _, _, he⟩
  · exact ⟨ps.length, by rw [he, commands_write_events]⟩
  · refine ⟨ps.length + 1, ?_⟩
    rw [he, commands_append, commands_write_events, ← addresses_append_one]
    simp [commands, Event.command]

theorem addresses_at (offset : Int) (n i : Nat) (a : Int)
    (h : (addresses offset 0 n)[i]? = some a) : i < n ∧ a = (offset + i) % 256 := by
  have hlt : i < n := by
    by_contra hge
    rw [List.getElem?_eq_none (by rw [addresses_length]; omega)] at h
    cases h
  rw [addresses_get offset n 0 i hlt] at h
  refine ⟨hlt, ?_⟩
  have := Option.some.inj h
  rw [← this, add_zero]
  rfl

/-- For every call, whatever the capacity, offset and length and whatever the
transport does: the register address handed to transport call number `i` of
an `at24_read` or `at24_write` at session offset `offset` is
`(offset + i) mod 256`. -/
theorem register_addresses {σ : Type} (client : i2c_client σ) (ldev : at24_device)
    (dev : σ) (user : UserMem) (length offset : Int) :
    (∃ r, at24_read client ldev dev user length offset = some r ∧
      ∀ (i : Nat) (a : Int), (commands r.trace)[i]? = some a → a = (offset + i) % 256) ∧
    (∃ r, at24_write client ldev dev user length offset = some r ∧
      ∀ (i : Nat) (a : Int), (commands r.trace)[i]? = some a → a = (offset + i) % 256) := by
  constructor
  · obtain ⟨r, o, heq, htrace, _⟩ := at24_read_general client ldev dev user length offset
    obtain ⟨n, hn⟩ := commands_of_read_trace offset o r.trace htrace
    exact ⟨r, heq, fun i a h => (addresses_at offset n i a (by rw [← hn]; exact h)).2⟩
  · obtain ⟨r, o, heq, htrace, _⟩ := at24_write_general client ldev dev user length offset
    obtain ⟨n, hn⟩ := commands_of_write_trace offset o r.trace htrace
    exact ⟨r, heq, fun i a h => (addresses_at offset n i a (by rw [← hn]; exact h)).2⟩

theorem read_shape_calls (offset : Int) (k : Nat) (user0 user1 : UserMem) (o : Option Int)
    (evs : List Event) (h : ReadShape offset 0 k user0 o user1 evs) :
    ∃ n, n ≤ k ∧ commands evs = addresses offset 0 n ∧ (o = none → n = k) := by
  obtain ⟨rs, _, _, hcases⟩ := h
  rcases hcases with ⟨_, he, hl⟩ | ⟨c, ho, _, hl, he⟩ | ⟨c, ho, _, hl, _, he⟩
  · exact ⟨rs.length, by omega, by rw [he, commands_read_events], fun _ => hl⟩
  · refine ⟨rs.length + 1, by omega, ?_, fun h => by rw [ho] at h; cases h⟩
    rw [he, commands_append, commands_read_events, ← addresses_append_one]
    simp [commands, Event.command]
  · refine ⟨rs.length + 1, by omega, ?_, fun h => by rw [ho] at h; cases h⟩
    rw [he, commands_append, commands_read_events, ← addresses_append_one]
    simp [commands, Event.command]

theorem write_shape_calls (offset : Int) (k : Nat) (user0 user1 : UserMem) (o : Option Int)
    (evs : List Event) (h : WriteShape offset 0 k user0 o user1 evs) :
    ∃ n, n ≤ k ∧ commands evs = addresses offset 0 n ∧ (o = none → n = k) := by
  obtain ⟨ps, _, _, hcases⟩ := h
  rcases hcases with ⟨_, he, hl⟩ | ⟨v, c, ho, _, hl, he⟩ | ⟨ho, hl, _, he⟩
  · exact ⟨ps.length, by omega, by rw [he, commands_write_events], fun _ => hl⟩
  · refine ⟨ps.length + 1, by omega, ?_, fun h => by rw [ho] at h; cases h⟩
    rw [he, commands_append, commands_write_events, ← addresses_append_one]
    simp [commands, Event.command]
  · exact ⟨ps.length, by omega, by rw [he, commands_write_events],
      fun h => by rw [ho] at h; cases h⟩

/-- For a capacity from 1 to 257, a session offset that is not negative and a
requested length that is a non-negative `ssize_t`: the register address of
every transport call of a read or write is the absolute offset `offset + i`
of the byte. -/
theorem registers_small_capacity {σ : Type} (client : i2c_client σ) (ldev : at24_device)
    (dev : σ) (user : UserMem) (length offset : Int)
    (hsize : 1 ≤ ldev.size_in_bytes ∧ ldev.size_in_bytes ≤ 257)
    (hoff : 0 ≤ offset)
    (hlen : 0 ≤ length ∧ length < 9223372036854775808) :
    (∃ r, at24_read client ldev dev user length offset = some r ∧
      ∀ (i : Nat) (a : Int), (commands r.trace)[i]? = some a → a = offset + i) ∧
    (∃ r, at24_write client ldev dev user length offset = some r ∧
      ∀ (i : Nat) (a : Int), (commands r.trace)[i]? = some a → a = offset + i) := by
  by_cases hin : offset < ldev.size_in_bytes - 1
  · have hn0 : 0 ≤ min length (ldev.size_in_bytes - offset - 1) := le_min hlen.1 (by omega)
    have hnr := min_le_right length (ldev.size_in_bytes - offset - 1)
    have hit := iters_small (min length (ldev.size_in_bytes - offset - 1)) (by omega)
    constructor
    · obtain ⟨r, o, heq, hshape, _⟩ := at24_read_in_range client ldev dev user length
        offset (by omega) ⟨hoff, hin⟩ hlen
      obtain ⟨n, hnk, hn, _⟩ := read_shape_calls offset _ _ _ _ _ hshape
      refine ⟨r, heq, fun i a h => ?_⟩
      obtain ⟨hi, ha⟩ := addresses_at offset n i a (by rw [← hn]; exact h)
      rw [ha]
      rw [hit] at hnk
      omega
    · obtain ⟨r, o, heq, hshape, _⟩ := at24_write_in_range client ldev dev user length
        offset (by omega) ⟨hoff, hin⟩ hlen
      obtain ⟨n, hnk, hn, _⟩ := write_shape_calls offset _ _ _ _ _ hshape
      refine ⟨r, heq, fun i a h => ?_⟩
      obtain ⟨hi, ha⟩ := addresses_at offset n i a (by rw [← hn]; exact h)
      rw [ha]
      rw [hit] at hnk
      omega
  · obtain ⟨h1, h2⟩ := eof_guard client ldev dev user length offset
      ⟨hsize.1, by omega⟩ (by omega)
    exact ⟨⟨_, h1, fun i a h => by simp [commands] at h⟩,
      ⟨_, h2, fun i a h => by simp [commands] at h⟩⟩

/-- For a capacity above 257 there is a transfer in which two distinct
absolute offsets go to one register: a read or write of 257 bytes at offset 0
whose transport calls all succeed addresses register 0 both for offset 0 and
for offset 256. -/
theorem registers_alias {σ : Type} (client : i2c_client σ) (ldev : at24_device)
    (dev : σ) (user : UserMem)
    (hsize : 257 < ldev.size_in_bytes ∧ ldev.size_in_bytes < 4294967296)
    (hbuf : ∀ i, 0 ≤ i → i < 257 → user i ≠ none) :
    (∃ r, at24_read client ldev dev user 257 0 = some r ∧
      ((∀ c ∈ results r.trace, 0 ≤ c) →
        (commands r.trace)[0]? = some 0 ∧ (commands r.trace)[256]? = some 0)) ∧
    (∃ r, at24_write client ldev dev user 257 0 = some r ∧
      ((∀ c ∈ results r.trace, 0 ≤ c) →
        (commands r.trace)[0]? = some 0 ∧ (commands r.trace)[256]? = some 0)) := by
  have hmin : min (257 : Int) (ldev.size_in_bytes - 0 - 1) = 257 := min_eq_left (by omega)
  have hit : iters 257 = 257 := by decide
  have hget : (addresses 0 0 257)[0]? = some 0 ∧ (addresses 0 0 257)[256]? = some 0 :=
    ⟨by rw [addresses_get 0 257 0 0 (by omega)]; decide,
     by rw [addresses_get 0 257 0 256 (by omega)]; decide⟩
  constructor
  · obtain ⟨r, o, heq, ⟨rs, hrs, _, hcases⟩, _⟩ :=
      at24_read_in_range client ldev dev user 257 0 hsize.2 ⟨le_refl _, by omega⟩
        (by decide)
    rw [hmin, hit] at hcases
    refine ⟨r, heq, fun hok => ?_⟩
    rcases hcases with ⟨_, htr, hk⟩ | ⟨c, _, hc, _, htr⟩ | ⟨c, _, _, hlt, hnone, _⟩
    · rw [htr, commands_read_events, hk]
      exact hget
    · exfalso
      have := hok c (by rw [htr, results_append, results_read_events]; simp [results,
        Event.result])
      omega
    · exfalso
      exact hbuf (0 + rs.length) (by omega) (by omega) hnone
  · obtain ⟨r, o, heq, ⟨ps, hps, _, hcases⟩, _⟩ :=
      at24_write_in_range client ldev dev user 257 0 hsize.2 ⟨le_refl _, by omega⟩
        (by decide)
    rw [hmin, hit] at hcases
    refine ⟨r, heq, fun hok => ?_⟩
    rcases hcases with ⟨_, htr, hk⟩ | ⟨v, c, _, hc, _, htr⟩ | ⟨_, hlt, hnone, _⟩
    · rw [htr, commands_write_events, hk]
      exact hget
    · exfalso
      have := hok c (by rw [htr, results_append, results_write_events]; simp [results,
        Event.result])
      omega
    · exfalso
      exact hbuf (0 + ps.length) (by omega) (by omega) hnone

/-- At capacity 0 and offset 0 a read is not stopped by the guard; on a
transport that never fails, with user memory accessible around `buffer`, it
makes more than 256 transport calls, and call number 256 addresses register
0. -/
theorem read_capacity_zero_calls {σ : Type} (client : i2c_client σ) (dev : σ)
    (user : UserMem) (length : Int)
    (hok : ∀ s c, 0 ≤ (client.i2c_smbus_read_byte_data s c).1)
    (huser : ∀ t, user t ≠ none)
    (hlen : 0 ≤ length ∧ length < 9223372036854775808) :
    ∃ r, at24_read client ⟨0⟩ dev user length 0 = some r ∧
      (commands r.trace)[256]? = some 0 := by
  have hg : ¬ (0 : Int) ≥ u32 ((0 : Int) - 1) := by decide
  have hclamp : clamp_length ⟨0⟩ length 0 = 18446744073709551615 := by
    unfold clamp_length u64 s64
    rw [min_eq_left (by simp only []; omega)]
    simp only []
    omega
  have h1 := read_loop_run client 0 18446744073709551615 257 LOOP_FUEL 0
    ⟨dev, user, []⟩ (by decide) (by decide) (by decide)
    (fun t ht => by unfold u64; omega) (by decide)
  obtain ⟨hn1, _⟩ := read_iter_never_fails client 0 hok 257 0 ⟨dev, user, []⟩ huser
  obtain ⟨evs, htr, hshape⟩ := read_iter_shape client 0 257 0 ⟨dev, user, []⟩
  rcases hr1 : read_iter client 0 257 0 ⟨dev, user, []⟩ with ⟨o1, st1⟩
  rw [hr1] at h1 hn1 htr hshape
  simp only at hn1
  subst hn1
  simp only [List.nil_append] at h1 htr
  have htr1 : st1.trace = evs := htr
  obtain ⟨n, _, hn, hnk⟩ := read_shape_calls 0 257 _ _ _ _ hshape
  rw [hnk rfl] at hn
  obtain ⟨res, hres⟩ := read_loop_total client 0 18446744073709551615 (by decide)
    (LOOP_FUEL - 257) (s32 ((0 : Int) + ((257 : Nat) : Int))) st1
    (by decide) (by decide) (by decide)
  obtain ⟨evs2, htr2, _⟩ := read_loop_trace client 0 _ _ _ _ _ hres
  rw [hres] at h1
  obtain ⟨o2, st2⟩ := res
  have htr3 : st2.trace = st1.trace ++ evs2 := htr2
  have heq : at24_read client ⟨0⟩ dev user length 0
      = some (finish 0 18446744073709551615 (o2, st2)) := by
    simp only [at24_read, hg, if_false, hclamp, h1, Option.map_some']
  have hfin : (finish 0 18446744073709551615 (o2, st2)).trace = st2.trace := by
    cases o2 <;> rfl
  refine ⟨_, heq, ?_⟩
  rw [hfin, htr3, htr1, commands_append, hn,
    List.getElem?_append_left (by rw [addresses_length]; omega),
    addresses_get 0 257 0 256 (by omega)]
  decide

/-- C14 at capacity 0 (which is at most 257), session offset 0: a one-byte
read from the never-failing byte store, with user memory accessible around the
buffer, transacts more than 256 bytes, and the byte at absolute offset 256 is
asked from register 0. -/
theorem C14_register_differs_capacity_zero :
    (0 : Int) ≤ 257 ∧
    ∃ r, at24_read eeprom ⟨0⟩ (fun _ => 0) (fun _ => some 0) 1 0 = some r ∧
      (commands r.trace)[256]? = some 0 ∧ (0 : Int) + 256 ≠ 0 := by
  obtain ⟨r, h1, h2⟩ := read_capacity_zero_calls eeprom (fun _ => 0) (fun _ => some 0) 1
    (fun s c => by simp only [eeprom, u8]; omega) (fun t => by simp) (by decide)
  exact ⟨by decide, r, h1, h2, by decide⟩

/-! ## C15: read and write address alike -/

/-- For a capacity of at least 1 (a `u32`), a session offset that is not
negative, a requested length that is a non-negative `ssize_t` and a caller
buffer holding that many bytes: when the transport calls of both succeeded,
`at24_read` and `at24_write` return the same count, leave the same offset and
hand the same register addresses to the transport in the same order. -/
theorem read_write_same_addressing {σ τ : Type} (rclient : i2c_client σ)
    (wclient : i2c_client τ) (ldev : at24_device) (rdev : σ) (wdev : τ)
    (user : UserMem) (length offset : Int)
    (hsize : 1 ≤ ldev.size_in_bytes ∧ ldev.size_in_bytes < 4294967296)
    (hoff : 0 ≤ offset)
    (hlen : 0 ≤ length ∧ length < 9223372036854775808)
    (hbuf : ∀ i, 0 ≤ i → i < length → user i ≠ none) :
    ∃ rr rw, at24_read rclient ldev rdev user length offset = some rr ∧
      at24_write wclient ldev wdev user length offset = some rw ∧
      ((∀ c ∈ results rr.trace, 0 ≤ c) → (∀ c ∈ results rw.trace, 0 ≤ c) →
        rr.ret = rw.ret ∧ rr.pos = rw.pos ∧ commands rr.trace = commands rw.trace) := by
  by_cases hin : offset < ldev.size_in_bytes - 1
  · have hn0 : 0 ≤ min length (ldev.size_in_bytes - offset - 1) := le_min hlen.1 (by omega)
    have hnl := min_le_left length (ldev.size_in_bytes - offset - 1)
    have hit := iters_le _ _ hn0 hnl
    obtain ⟨rr, o1, heq1, ⟨rs, hrs, _, hc1⟩, hfin1⟩ :=
      at24_read_in_range rclient ldev rdev user length offset hsize.2 ⟨hoff, hin⟩ hlen
    obtain ⟨rw, o2, heq2, ⟨ps, hps, _, hc2⟩, hfin2⟩ :=
      at24_write_in_range wclient ldev wdev user length offset hsize.2 ⟨hoff, hin⟩ hlen
    refine ⟨rr, rw, heq1, heq2, fun hok1 hok2 => ?_⟩
    rcases hc1 with ⟨ho1, htr1, hk1⟩ | ⟨c, _, hc, _, htr⟩ | ⟨c, _, _, hlt, hnone, _⟩
    · rcases hc2 with ⟨ho2, htr2, hk2⟩ | ⟨v, c, _, hc, _, htr⟩ | ⟨_, hlt, hnone, _⟩
      · rcases hfin1 with ⟨_, a1, b1⟩ | ⟨c, h, _⟩
        · rcases hfin2 with ⟨_, a2, b2⟩ | ⟨c, h, _⟩
          · refine ⟨by rw [a1, a2], by rw [b1, b2], ?_⟩
            rw [htr1, htr2, commands_read_events, commands_write_events, hk1, hk2]
          · rw [ho2] at h; cases h
        · rw [ho1] at h; cases h
      · exfalso
        have := hok2 c (by rw [htr, results_append, results_write_events]; simp [results,
          Event.result])
        omega
      · exfalso
        exact hbuf (0 + ps.length) (by omega) (by omega) hnone
    · exfalso
      have := hok1 c (by rw [htr, results_append, results_read_events]; simp [results,
        Event.result])
      omega
    · exfalso
      exact hbuf (0 + rs.length) (by omega) (by omega) hnone
  · have h1 := (eof_guard rclient ldev rdev user length offset hsize (by omega)).1
    have h2 := (eof_guard wclient ldev wdev user length offset hsize (by omega)).2
    exact ⟨_, _, h1, h2, fun _ _ => ⟨rfl, rfl, rfl⟩⟩

/-- C15 at capacity 0, session offset 0, on the never-failing byte store, with
a request of one byte and a caller buffer holding that byte (nothing
accessible behind it): the guard lets both calls through with the length
`(size_t)-1`, every transport call succeeds, and the two calls do not address
alike: the read has asked registers 0 and 1 when the second byte cannot be
stored, the write has asked register 0 only when the second byte cannot be
fetched. Both return `-EFAULT` and leave the offset. -/
theorem C15_registers_differ_capacity_zero :
    user_of [0] 0 ≠ none ∧
    (at24_read eeprom ⟨0⟩ (fun _ => 0) (user_of [0]) 1 0).map
        (fun r => (r.ret, r.pos, results r.trace, commands r.trace))
      = some (-14, 0, [0, 0], [0, 1]) ∧
    (at24_write eeprom ⟨0⟩ (fun _ => 0) (user_of [0]) 1 0).map
        (fun r => (r.ret, r.pos, results r.trace, commands r.trace))
      = some (-14, 0, [0], [0]) ∧
    (at24_read eeprom ⟨0⟩ (fun _ => 0) (user_of [0]) 1 0).map (fun r => commands r.trace)
      ≠ (at24_write eeprom ⟨0⟩ (fun _ => 0) (user_of [0]) 1 0).map
          (fun r => commands r.trace) := by
  decide

/-- The addressing of read and write on a 10-byte device, 4 bytes from offset
7: both return 2, leave the offset at 9 and ask registers 7 and 8. -/
theorem C15_evaluated :
    (at24_read eeprom ⟨10⟩ (fun _ => 0) (user_of [1, 2, 3, 4]) 4 7).map
        (fun r => (r.ret, r.pos, commands r.trace)) = some (2, 9, [7, 8]) ∧
    (at24_write eeprom ⟨10⟩ (fun _ => 0) (user_of [1, 2, 3, 4]) 4 7).map
        (fun r => (r.ret, r.pos, commands r.trace)) = some (2, 9, [7, 8]) := by
  decide

theorem addresses_congr (offset : Int) :
    ∀ (n : Nat) (a b : Int), u8 a = u8 b → addresses offset a n = addresses offset b n := by
  intro n
  induction n with
  | zero => intro a b _; rfl
  | succ n ih =>
    intro a b h
    simp only [addresses]
    rw [ih (a + 1) (b + 1) (by unfold u8 at h ⊢; omega)]
    rw [show u8 (offset + a) = u8 (offset + b) by unfold u8 at h ⊢; omega]

/-- A run of the loop of `at24_read` that reaches the end of the loop has made
`loop_count` transport calls, to consecutive register addresses. -/
theorem read_loop_complete {σ : Type} (client : i2c_client σ) (offset length : Int) :
    ∀ (fuel : Nat) (i : Int) (st st1 : Io σ),
      read_loop client offset length fuel i st = some (none, st1) →
      commands st1.trace
        = commands st.trace ++ addresses offset i (loop_count length fuel i) := by
  intro fuel
  induction fuel with
  | zero => intro i st st1 h; simp [read_loop] at h
  | succ fuel ih =>
    intro i st st1 h
    simp only [read_loop, command_eq] at h
    simp only [loop_count]
    split at h
    · next hc =>
      rw [if_pos hc]
      split at h
      · simp at h
      · split at h
        · simp at h
        · have := ih _ _ _ h
          rw [this, addresses_congr offset _ _ _ (u8_s32_succ i)]
          simp [commands, Event.command, addresses]
    · next hc =>
      rw [if_neg hc]
      simp only [Option.some.injEq, Prod.mk.injEq, true_and] at h
      rw [← h]
      simp [addresses]

/-- A run of the loop of `at24_write` that reaches the end of the loop has
made `loop_count` transport calls, to consecutive register addresses. -/
theorem write_loop_complete {σ : Type} (client : i2c_client σ) (offset length : Int) :
    ∀ (fuel : Nat) (i : Int) (st st1 : Io σ),
      write_loop client offset length fuel i st = some (none, st1) →
      commands st1.trace
        = commands st.trace ++ addresses offset i (loop_count length fuel i) := by
  intro fuel
  induction fuel with
  | zero => intro i st st1 h; simp [write_loop] at h
  | succ fuel ih =>
    intro i st st1 h
    simp only [write_loop, command_eq] at h
    simp only [loop_count]
    split at h
    · next hc =>
      rw [if_pos hc]
      split at h
      · simp at h
      · split at h
        · simp at h
        · have := ih _ _ _ h
          rw [this, addresses_congr offset _ _ _ (u8_s32_succ i)]
          simp [commands, Event.command, addresses]
    · next hc =>
      rw [if_neg hc]
      simp only [Option.some.injEq, Prod.mk.injEq, true_and] at h
      rw [← h]
      simp [addresses]

theorem read_trace_complete (offset : Int) (o : Option Int) (evs : List Event)
    (h : ReadTrace offset 0 o evs) (hok : ∀ c ∈ results evs, 0 ≤ c)
    (hfault : o ≠ some (-EFAULT)) : o = none := by
  obtain ⟨rs, _, hcases⟩ := h
  rcases hcases with ⟨ho, _⟩ | ⟨c, _, hc, he⟩
  · rcases ho with ho | ho
    · exact ho
    · exact absurd ho hfault
  · exfalso
    have := hok c (by rw [he, results_append, results_read_events]; simp [results,
      Event.result])
    omega

theorem write_trace_complete (offset : Int) (o : Option Int) (evs : List Event)
    (h : WriteTrace offset 0 o evs) (hok : ∀ c ∈ results evs, 0 ≤ c)
    (hfault : o ≠ some (-EFAULT)) : o = none := by
  obtain ⟨ps, _, hcases⟩ := h
  rcases hcases with ⟨ho, _⟩ | ⟨v, c, _, hc, he⟩
  · rcases ho with ho | ho
    · exact ho
    · exact absurd ho hfault
  · exfalso
    have := hok c (by rw [he, results_append, results_write_events]; simp [results,
      Event.result])
    omega

/-- Read and write address alike whenever neither is cut short: for every
capacity, session offset and requested length, on any two buses and user
buffers, `at24_read` and `at24_write` both return; when the transport calls of
both succeeded and neither call ended on a fault on the caller's buffer
(`-EFAULT`), they return the same count, leave the same session offset and
hand the same register addresses to the transport in the same order. -/
theorem same_addressing_without_fault {σ τ : Type} (rclient : i2c_client σ)
    (wclient : i2c_client τ) (ldev : at24_device) (rdev : σ) (wdev : τ)
    (ruser wuser : UserMem) (length offset : Int) :
    ∃ rr rw, at24_read rclient ldev rdev ruser length offset = some rr ∧
      at24_write wclient ldev wdev wuser length offset = some rw ∧
      ((∀ c ∈ results rr.trace, 0 ≤ c) → (∀ c ∈ results rw.trace, 0 ≤ c) →
        rr.ret ≠ -EFAULT → rw.ret ≠ -EFAULT →
        rr.ret = rw.ret ∧ rr.pos = rw.pos ∧ commands rr.trace = commands rw.trace) := by
  by_cases hg : offset ≥ u32 (ldev.size_in_bytes - 1)
  · exact ⟨⟨0, offset, rdev, ruser, []⟩, ⟨0, offset, wdev, wuser, []⟩,
      by simp only [at24_read, hg, if_true], by simp only [at24_write, hg, if_true],
      fun _ _ _ _ => ⟨rfl, rfl, rfl⟩⟩
  · obtain ⟨res1, hres1⟩ := read_loop_total rclient offset (clamp_length ldev length offset)
      (clamp_length_lt ldev length offset).2 LOOP_FUEL 0 ⟨rdev, ruser, []⟩
      (by decide) (by decide) (by decide)
    obtain ⟨res2, hres2⟩ := write_loop_total wclient offset (clamp_length ldev length offset)
      (clamp_length_lt ldev length offset).2 LOOP_FUEL 0 ⟨wdev, wuser, []⟩
      (by decide) (by decide) (by decide)
    obtain ⟨evs1, htr1, hshape1⟩ := read_loop_trace rclient offset _ _ _ _ _ hres1
    obtain ⟨evs2, htr2, hshape2⟩ := write_loop_trace wclient offset _ _ _ _ _ hres2
    obtain ⟨o1, st1⟩ := res1
    obtain ⟨o2, st2⟩ := res2
    have ht1 : st1.trace = evs1 := by simpa using htr1
    have ht2 : st2.trace = evs2 := by simpa using htr2
    have heq1 : at24_read rclient ldev rdev ruser length offset
        = some (finish offset (clamp_length ldev length offset) (o1, st1)) := by
      simp only [at24_read, hg, if_false, hres1, Option.map_some']
    have heq2 : at24_write wclient ldev wdev wuser length offset
        = some (finish offset (clamp_length ldev length offset) (o2, st2)) := by
      simp only [at24_write, hg, if_false, hres2, Option.map_some']
    refine ⟨_, _, heq1, heq2, fun hok1 hok2 hf1 hf2 => ?_⟩
    have hfin1 : (finish offset (clamp_length ldev length offset) (o1, st1)).trace
        = st1.trace := by cases o1 <;> rfl
    have hfin2 : (finish offset (clamp_length ldev length offset) (o2, st2)).trace
        = st2.trace := by cases o2 <;> rfl
    rw [hfin1, ht1] at hok1
    rw [hfin2, ht2] at hok2
    have ho1 : o1 = none := by
      refine read_trace_complete offset o1 evs1 hshape1 hok1 ?_
      intro h
      apply hf1
      rw [h]
      rfl
    have ho2 : o2 = none := by
      refine write_trace_complete offset o2 evs2 hshape2 hok2 ?_
      intro h
      apply hf2
      rw [h]
      rfl
    subst ho1
    subst ho2
    have hc1 := read_loop_complete rclient offset _ _ _ _ _ hres1
    have hc2 := write_loop_complete wclient offset _ _ _ _ _ hres2
    refine ⟨rfl, rfl, ?_⟩
    simp only [finish]
    rw [hc1, hc2]

/-! ## C4: the round trip at every capacity -/

/-- C4 as amended: for every capacity `C > 1` (a `u32`), every byte sequence
`w` (bytes in `0..255`) and a caller buffer of `C` bytes, over the
never-failing byte store: writing `w` at offset 0, seeking to 0 and reading
`C` bytes returns `C - 1`; every transport call of the read is for an offset
below the guard byte `C - 1`, call number `i` asking register `i mod 256`; and
when `min(|w|, C - 1) <= 256`, so that every byte written has a register of
its own, the first `min(|w|, C - 1)` bytes read are those of `w` in order. -/
theorem C4_round_trip (C : Int) (dev : Int → Int) (w : List Int) (rbuf : UserMem)
    (hC : 1 < C ∧ C < 4294967296)
    (hw : ∀ b ∈ w, 0 ≤ b ∧ b < 256)
    (hwl : (w.length : Int) < 9223372036854775808)
    (hrbuf : ∀ i, 0 ≤ i → i < C → rbuf i ≠ none) :
    ∃ r, write_seek_read eeprom ⟨C⟩ dev w rbuf = some r ∧ r.ret = C - 1 ∧
      (∀ (i : Nat) (a : Int), (commands r.trace)[i]? = some a →
        (i : Int) < C - 1 ∧ a = (i : Int) % 256) ∧
      (min (w.length : Int) (C - 1) ≤ 256 →
        ∀ (i : Nat) (b : Int), w[i]? = some b → (i : Int) < C - 1 → r.user i = some b) := by
  -- the write
  obtain ⟨hg1, hc1⟩ := clamp_in_range ⟨C⟩ w.length 0 (by simp only []; omega)
    (by simp only []; omega) ⟨by omega, hwl⟩
  simp only [sub_zero] at hc1
  have hn1a := min_le_left (w.length : Int) (C - 1)
  have hn1b := min_le_right (w.length : Int) (C - 1)
  have hn1c : 0 ≤ min (w.length : Int) (C - 1) := le_min (by omega) (by omega)
  have hwr := at24_write_eq eeprom ⟨C⟩ dev (user_of w) w.length 0 hg1 (by rw [hc1]; omega)
  rw [hc1] at hwr
  have hit1 := iters_le _ _ hn1c hn1a
  have hw1 := write_iter_eeprom_total 0 (iters (min (w.length : Int) (C - 1))) 0
    ⟨dev, user_of w, []⟩
    (fun t ht => user_of_ne_none w (0 + (t : Int)) (by omega) (by omega))
  rcases hres1 : write_iter eeprom 0 (iters (min (w.length : Int) (C - 1))) 0
    ⟨dev, user_of w, []⟩ with ⟨o1, st1⟩
  rw [hres1] at hwr hw1
  simp only at hw1
  subst hw1
  -- the seek
  have hpos1 : s64 (0 + min (w.length : Int) (C - 1)) = min (w.length : Int) (C - 1) := by
    rw [zero_add]; exact s64_of_range (by omega) (by omega)
  have hseek : (at24_llseek ⟨C⟩ (min (w.length : Int) (C - 1)) 0 SEEK_SET).2 = 0 := by
    simp only [at24_llseek, llseek_newpos, if_true]
    rw [if_neg (by omega)]
  -- the read
  obtain ⟨hg2, hc2⟩ := clamp_in_range ⟨C⟩ C 0 (by simp only []; omega)
    (by simp only []; omega) ⟨by omega, by omega⟩
  simp only [sub_zero] at hc2
  rw [min_eq_right (by omega)] at hc2
  have hrd := at24_read_eq eeprom ⟨C⟩ st1.dev rbuf C 0 hg2 (by rw [hc2]; omega)
  rw [hc2] at hrd
  have hit2 := iters_le (C - 1) (C - 1) (by omega) (le_refl _)
  obtain ⟨hr1, _⟩ := read_iter_eeprom_frame 0 (iters (C - 1)) 0 ⟨st1.dev, rbuf, []⟩
    (fun t ht => hrbuf (0 + (t : Int)) (by omega) (by omega))
  obtain ⟨evs, htr, hshape⟩ := read_iter_shape eeprom 0 (iters (C - 1)) 0 ⟨st1.dev, rbuf, []⟩
  rcases hres2 : read_iter eeprom 0 (iters (C - 1)) 0 ⟨st1.dev, rbuf, []⟩ with ⟨o2, st2⟩
  rw [hres2] at hrd hr1 htr hshape
  simp only [List.nil_append] at hr1 htr hshape
  subst hr1
  obtain ⟨n, hnk, hcmd, _⟩ := read_shape_calls 0 _ _ _ _ _ hshape
  refine ⟨finish 0 (C - 1) (none, st2), ?_, ?_, ?_, ?_⟩
  · simp only [write_seek_read, hwr, finish, hpos1, hseek, hrd]
  · simp only [finish]
    exact s64_of_range (by omega) (by omega)
  · intro i a hia
    simp only [finish] at hia
    rw [htr, hcmd] at hia
    obtain ⟨hlt, ha⟩ := addresses_at 0 n i a hia
    refine ⟨by omega, ?_⟩
    rw [ha, zero_add]
  · intro hfit i b hi hlt
    have hil : i < w.length := by
      by_contra hge
      rw [List.getElem?_eq_none (by omega)] at hi
      cases hi
    have hb := hw b (List.getElem?_mem hi)
    -- the registers after the write
    rw [iters_small _ (by omega)] at hres1
    obtain ⟨_, hw2⟩ := write_iter_eeprom (min (w.length : Int) (C - 1)).toNat 0
      ⟨dev, user_of w, []⟩ (le_refl _) (by omega)
      (fun t ht => user_of_ne_none w (0 + (t : Int)) (by omega) (by omega))
    rw [hres1] at hw2
    simp only at hw2
    -- the read: the bytes written first, then the rest of the buffer
    have hk1 : (min (w.length : Int) (C - 1)).toNat ≤ iters (C - 1) := by
      unfold iters
      omega
    have hk : iters (C - 1) = (min (w.length : Int) (C - 1)).toNat
        + (iters (C - 1) - (min (w.length : Int) (C - 1)).toNat) := by omega
    rw [hk, read_iter_add] at hres2
    obtain ⟨ha1, ha2, _⟩ := read_iter_eeprom (min (w.length : Int) (C - 1)).toNat 0
      ⟨st1.dev, rbuf, []⟩ (le_refl _) (by omega)
      (fun t ht => hrbuf (0 + (t : Int)) (by omega) (by omega))
    rcases hresa : read_iter eeprom 0 (min (w.length : Int) (C - 1)).toNat 0
      ⟨st1.dev, rbuf, []⟩ with ⟨oa, sta⟩
    rw [hresa] at hres2 ha1 ha2
    simp only at hres2 ha1 ha2
    subst ha1
    simp only at hres2
    have hacc2 : ∀ t : Nat, t < iters (C - 1) - (min (w.length : Int) (C - 1)).toNat →
        sta.user (0 + (((min (w.length : Int) (C - 1)).toNat : Nat) : Int) + (t : Int))
          ≠ none := by
      intro t ht
      rw [ha2, if_neg (by omega)]
      exact hrbuf _ (by omega) (by omega)
    obtain ⟨_, hb2⟩ := read_iter_eeprom_frame 0
      (iters (C - 1) - (min (w.length : Int) (C - 1)).toNat)
      (0 + (((min (w.length : Int) (C - 1)).toNat : Nat) : Int)) sta hacc2
    rw [hres2] at hb2
    simp only at hb2
    simp only [finish]
    rw [hb2 i (by omega), ha2 i, if_pos (by omega), hw2 i, if_pos (by omega)]
    have hs : sent (user_of w) (i : Int) = u8 b := by
      simp [sent, get_user, user_of_get w i b hi]
    rw [hs, u8_small hb.1 hb.2, u8_small hb.1 hb.2, u8_small hb.1 hb.2]

/-- C4 as amended, at capacity 300 with the bytes of "data": the read of 300
bytes returns 299, its calls are for offsets below 299, and the first four
bytes read are d, a, t, a. -/
theorem C4_round_trip_witness :
    (1 : Int) < 300 ∧ (300 : Int) < 4294967296 ∧
    ∃ r, write_seek_read eeprom ⟨300⟩ (fun _ => 0) [100, 97, 116, 97]
        (fun _ => some 0) = some r ∧ r.ret = 300 - 1 ∧
      (∀ (i : Nat) (a : Int), (commands r.trace)[i]? = some a →
        (i : Int) < 300 - 1 ∧ a = (i : Int) % 256) ∧
      (∀ (i : Nat) (b : Int), ([100, 97, 116, 97] : List Int)[i]? = some b →
        (i : Int) < 300 - 1 → r.user i = some b) := by
  obtain ⟨r, h1, h2, h3, h4⟩ :=
    C4_round_trip 300 (fun _ => 0) [100, 97, 116, 97] (fun _ => some 0)
      (by decide) (by decide) (by decide) (fun i _ _ => by simp)
  exact ⟨by decide, by decide, r, h1, h2, h3, h4 (by decide)⟩

/-- C4 as amended on the scenario of the specification, capacity 5 and the
bytes of "data": the read of 5 bytes returns 4, asks registers below 4 only,
and the four bytes read are d, a, t, a. -/
theorem round_trip_capacity_five :
    ∃ r, write_seek_read eeprom ⟨5⟩ (fun _ => 0) [100, 97, 116, 97]
        (user_of [0, 0, 0, 0, 0]) = some r ∧ r.ret = 4 ∧
      (∀ c ∈ commands r.trace, 0 ≤ c ∧ c < 4) ∧
      (∀ (i : Nat) (b : Int), ([100, 97, 116, 97] : List Int)[i]? = some b →
        r.user i = some b) := by
  refine ⟨_, rfl, by decide, by decide, ?_⟩
  intro i b hi
  have hlt : i < 4 := by
    by_contra hge
    rw [List.getElem?_eq_none (by simpa using hge)] at hi
    cases hi
  interval_cases i <;> simp at hi <;> subst hi <;> decide

/-! ## C9: the minors of the attached instances -/

/-- What the counter does after an out-of-order detach, and the sequence
above evaluated: after attach, attach, detach of the instance on minor 0
the counter is 1 and minor 1 is live, so the next `at24_probe` asks
`device_create` for minor 1; refused with -17 (`-EEXIST`), the probe returns
-17 and the driver state is what it was, the instance on minor 1 alone
attached. -/
theorem C9_evaluated :
    (run [Op.probe (probe_ok 256), Op.probe (probe_ok 128),
      Op.remove ⟨256, 0⟩]).device_count = 1 ∧
    (run [Op.probe (probe_ok 256), Op.probe (probe_ok 128),
      Op.remove ⟨256, 0⟩]).nodes.map Node.minor = [1] ∧
    at24_probe ⟨true, some 64, true, -17, 0⟩
        (run [Op.probe (probe_ok 256), Op.probe (probe_ok 128), Op.remove ⟨256, 0⟩])
      = (-17, run [Op.probe (probe_ok 256), Op.probe (probe_ok 128), Op.remove ⟨256, 0⟩]) ∧
    (run [Op.probe (probe_ok 256), Op.probe (probe_ok 128), Op.remove ⟨256, 0⟩,
      Op.probe ⟨true, some 64, true, -17, 0⟩]).attached = [⟨128, 1⟩] ∧
    (run
      [Op.probe (probe_ok 256), Op.probe ⟨true, some 256, true, 0, -16⟩,
       Op.probe (probe_ok 128), Op.remove ⟨256, 0⟩,
       Op.probe ⟨true, some 64, true, -17, 0⟩, Op.remove ⟨128, 1⟩,
       Op.probe (probe_ok 64), Op.probe (probe_ok 32)]).attached
      = [⟨32, 1⟩, ⟨64, 0⟩] := by
  decide

/-- The distinctness of the minors rests on `device_create`, not on the
counter: `at24_probe` takes the minor from `device_count` and makes no check
of its own. In the state above (counter 1, minor 1 live) the sequence with a
`device_create` that succeeds for minor 1, an answer the kernel does not
give, is outside `device_create_refuses_live`, and the model of `at24_probe`
would then attach a second instance on minor 1. -/
theorem distinct_minors_rest_on_device_create :
    removes_attached driver_init [Op.probe (probe_ok 256), Op.probe (probe_ok 256),
      Op.remove ⟨256, 0⟩, Op.probe (probe_ok 256)] = true ∧
    device_create_refuses_live driver_init [Op.probe (probe_ok 256), Op.probe (probe_ok 256),
      Op.remove ⟨256, 0⟩, Op.probe (probe_ok 256)] = false ∧
    (run [Op.probe (probe_ok 256), Op.probe (probe_ok 256), Op.remove ⟨256, 0⟩,
      Op.probe (probe_ok 256)]).attached.map Instance.minor = [1, 1] := by
  decide

end At24
